import Mathlib

/-!
Verification of the ultimate-ttt WebSocket relay server.

The repository contains two variants of the same relay:
* variant A — `src/unnamed/part_000`;
* variant B — `src/server.js`.

Both keep a process-wide `rooms : Map<code, {clients : Set<WS>, sides : Map<WS, 'X'|'O'>}>`.
We embed each variant's message handler, close handler and heartbeat tick as a
pure function from (registry state, sender, decoded frame) to (new state,
list of sends), with JS `Map`/`Set` modelled as insertion-ordered association
lists, JS object identity of connections modelled by ids, and the relevant
JavaScript value/coercion semantics (truthiness, `String(v)`, `trim`) spelled
out explicitly.
-/

set_option maxHeartbeats 1000000

namespace TTTRelay

/-- Player roles: `X` is the spec's FIRST, `O` its SECOND. -/
inductive Side
  | X
  | O
deriving DecidableEq, Repr

/-- Connections are compared by object reference in the source; modelled as ids. -/
abbrev Conn := Nat

/-- JavaScript values that can appear in the `t` and `room` fields of a decoded
message (the subset of JSON/JS values the handlers inspect). -/
inductive JsVal
  | undef
  | jsNull
  | jsBool (b : Bool)
  | jsNum (n : Int)
  | jsStr (s : String)
deriving DecidableEq, Repr

/-- JavaScript truthiness for the modelled values. -/
def jsTruthy : JsVal → Bool
  | .undef => false
  | .jsNull => false
  | .jsBool b => b
  | .jsNum n => n != 0
  | .jsStr s => s != ""

/-- JavaScript `String(v)` coercion for the modelled values. -/
def jsToString : JsVal → String
  | .undef => "undefined"
  | .jsNull => "null"
  | .jsBool b => if b then "true" else "false"
  | .jsNum n => toString n
  | .jsStr s => s

/-- Whitespace characters stripped by JS `trim` (ASCII subset). -/
def jsWhitespace (c : Char) : Bool :=
  c == ' ' || c == '\t' || c == '\n' || c == '\r' || c == '\x0b' || c == '\x0c'

/-- JavaScript `String.prototype.trim()`. -/
def jsTrim (s : String) : String :=
  String.mk (((s.data.dropWhile jsWhitespace).reverse.dropWhile jsWhitespace).reverse)

/-- The room code a variant-A handler computes: `String(m.room || '').trim()`. -/
def codeOfA (roomF : JsVal) : String :=
  jsTrim (jsToString (if jsTruthy roomF then roomF else .jsStr ""))

/-- A room: `clients` is the JS `Set<WS>` in insertion order, `sides` the JS
`Map<WS, 'X'|'O'>`; a stored `none` models a JS `null` value. -/
structure Room where
  clients : List Conn
  sides : List (Conn × Option Side)
deriving DecidableEq, Repr

def emptyRoom : Room := ⟨[], []⟩

/-- JS `Set.add`: no-op when present, else appended in insertion order. -/
def setAdd (l : List Conn) (c : Conn) : List Conn :=
  if c ∈ l then l else l ++ [c]

/-- JS `Set.delete`. -/
def setDelete (l : List Conn) (c : Conn) : List Conn :=
  l.filter (fun x => x != c)

/-- JS `Map.get`. -/
def mapGet (m : List (Conn × Option Side)) (c : Conn) : Option (Option Side) :=
  match m with
  | [] => none
  | (a, v) :: rest => if a = c then some v else mapGet rest c

/-- JS `Map.set`: updates the existing entry in place, else appends. -/
def mapSet (m : List (Conn × Option Side)) (c : Conn) (v : Option Side) :
    List (Conn × Option Side) :=
  match m with
  | [] => [(c, v)]
  | (a, w) :: rest => if a = c then (a, v) :: rest else (a, w) :: mapSet rest c v

/-- JS `Map.delete`. -/
def mapDelete (m : List (Conn × Option Side)) (c : Conn) : List (Conn × Option Side) :=
  m.filter (fun p => p.1 != c)

/-- The room registry: `rooms : Map<code, Room>` in insertion order. -/
abbrev Registry := List (String × Room)

def regLookup (rooms : Registry) (code : String) : Option Room :=
  match rooms with
  | [] => none
  | (c, r) :: rest => if c = code then some r else regLookup rest code

/-- The registry mutation of `getRoom`: create the room on first use. -/
def getRoomAdd (rooms : Registry) (code : String) : Registry :=
  if (regLookup rooms code).isSome then rooms else rooms ++ [(code, emptyRoom)]

/-- The object `getRoom(code)` returns. -/
def getRoomObj (rooms : Registry) (code : String) : Room :=
  (regLookup (getRoomAdd rooms code) code).getD emptyRoom

/-- Overwrite the room stored under `code` (JS mutates the stored object in
place; entries under other codes are untouched). -/
def updateRoom : Registry → String → Room → Registry
  | [], _, _ => []
  | (c, r') :: rest, code, r =>
    if c = code then (code, r) :: updateRoom rest code r
    else (c, r') :: updateRoom rest code r

/-- `rooms.delete(code)`. -/
def removeRoom : Registry → String → Registry
  | [], _ => []
  | (c, r') :: rest, code =>
    if c = code then removeRoom rest code else (c, r') :: removeRoom rest code

/-- Outbound messages (the serialized objects the handlers send). -/
inductive OutMsg
  | joined (room : String) (side : Option Side)
  | errMsg (e : String)
  | peerJoined (side : Option Side)
  | peerLeft (room : Option String)
  | moveMsg (sender : Option (Option Side)) (data : Nat)
  | resetMsg
deriving DecidableEq, Repr

/-- One send: recipient connection and message. -/
abbrev Send := Conn × OutMsg

/-- An inbound frame: either undecodable bytes, or a decoded object with its
`t`, `room` and (opaque, modelled as a token) `data` fields. -/
inductive Frame
  | invalid
  | msg (t : JsVal) (room : JsVal) (data : Nat)
deriving DecidableEq, Repr

/-- `r.clients.delete(ws); r.sides.delete(ws)`. -/
def roomErase (r : Room) (ws : Conn) : Room :=
  ⟨setDelete r.clients ws, mapDelete r.sides ws⟩

/-- part_000 `chooseSide`. -/
def chooseSide (r : Room) : Option Side :=
  let used := r.sides.map Prod.snd
  if some Side.X ∈ used then
    if some Side.O ∈ used then none else some Side.O
  else some Side.X

/-- part_000 `broadcast`: send to every open member except `except`. -/
def broadcast (isOpen : Conn → Bool) (r : Room) (m : OutMsg) (except : Option Conn) :
    List Send :=
  (r.clients.filter (fun c => isOpen c &&
    (match except with | none => true | some e => c != e))).map (fun c => (c, m))

/-- part_000 `leaveEverywhere`: scan the registry in order; the first room whose
client set contained `ws` is updated (or evicted when emptied), `peer_left`
is broadcast to its remaining members, and the scan stops (`break`). -/
def leaveEverywhereA (isOpen : Conn → Bool) (rooms : Registry) (ws : Conn) :
    Registry × List Send :=
  match rooms with
  | [] => ([], [])
  | (code, r) :: rest =>
    if ws ∈ r.clients then
      (if (roomErase r ws).clients = [] then rest else (code, roomErase r ws) :: rest,
       broadcast isOpen (roomErase r ws) (.peerLeft (some code)) none)
    else
      ((code, r) :: (leaveEverywhereA isOpen rest ws).1,
       (leaveEverywhereA isOpen rest ws).2)

/-- part_000 `join` branch. The source captures the room object with `getRoom`
before `leaveEverywhere` runs; when `leaveEverywhere` evicts that very room
from the registry (the sender was its sole member), the captured object is
still mutated and replied about even though it is no longer registered — the
`none` branches of the `regLookup` matches below model that aliasing. -/
def joinA (isOpen : Conn → Bool) (rooms : Registry) (ws : Conn) (code : String) :
    Registry × List Send :=
  if code = "" then (rooms, [(ws, .errMsg "missing_room")])
  else
    let rooms1 := getRoomAdd rooms code
    let r0 := getRoomObj rooms code
    let lv := leaveEverywhereA isOpen rooms1 ws
    let rCur := match regLookup lv.1 code with
      | some r => r
      | none => roomErase r0 ws
    match chooseSide rCur with
    | none => (lv.1, lv.2 ++ [(ws, .errMsg "room_full")])
    | some side =>
      let rFin : Room := ⟨setAdd rCur.clients ws, mapSet rCur.sides ws (some side)⟩
      let rooms3 := match regLookup lv.1 code with
        | some _ => updateRoom lv.1 code rFin
        | none => lv.1
      (rooms3,
        lv.2 ++ [(ws, .joined code (some side))] ++
          broadcast isOpen rFin (.peerJoined (some side)) (some ws))

/-- part_000 `move` branch. -/
def moveA (isOpen : Conn → Bool) (rooms : Registry) (ws : Conn) (code : String)
    (data : Nat) : Registry × List Send :=
  match regLookup rooms code with
  | none => (rooms, [])
  | some r =>
    if ws ∈ r.clients then
      (rooms, broadcast isOpen r (.moveMsg (mapGet r.sides ws) data) (some ws))
    else (rooms, [])

/-- part_000 `reset` branch. -/
def resetA (isOpen : Conn → Bool) (rooms : Registry) (ws : Conn) (code : String) :
    Registry × List Send :=
  match regLookup rooms code with
  | none => (rooms, [])
  | some r =>
    if ws ∈ r.clients then (rooms, broadcast isOpen r .resetMsg (some ws))
    else (rooms, [])

/-- part_000 message handler (dispatch on the truthy `t` field). -/
def handleMessageA (isOpen : Conn → Bool) (rooms : Registry) (ws : Conn) (f : Frame) :
    Registry × List Send :=
  match f with
  | .invalid => (rooms, [])
  | .msg t roomF data =>
    if jsTruthy t = false then (rooms, [])
    else if t = .jsStr "join" then joinA isOpen rooms ws (codeOfA roomF)
    else if t = .jsStr "move" then moveA isOpen rooms ws (codeOfA roomF) data
    else if t = .jsStr "reset" then resetA isOpen rooms ws (codeOfA roomF)
    else (rooms, [])

/-- part_000 close and error handlers (both call `leaveEverywhere`). -/
def closeA (isOpen : Conn → Bool) (rooms : Registry) (ws : Conn) :
    Registry × List Send :=
  leaveEverywhereA isOpen rooms ws

/-- server.js `assignSide` (its `ws` argument is unused in the source body). -/
def assignSide (r : Room) (ws : Conn) : Option Side :=
  let used := r.sides.map Prod.snd
  if some Side.X ∈ used then
    if some Side.O ∈ used then none else some Side.O
  else some Side.X

/-- server.js `otherClient`: first client that is not `ws`. -/
def otherClient (r : Room) (ws : Conn) : Option Conn :=
  r.clients.find? (fun c => c != ws)

/-- server.js `sideFor`. -/
def sideFor (r : Room) (ws : Conn) : Option (Option Side) :=
  mapGet r.sides ws

/-- Variant-B state: the registry plus each connection's `currentRoom` field
(absent entry = `null`; server.js never resets the field to `null`). -/
structure StateB where
  rooms : Registry
  cur : List (Conn × String)
deriving DecidableEq, Repr

/-- `ws.currentRoom = code`. -/
def curSet (l : List (Conn × String)) (ws : Conn) (code : String) :
    List (Conn × String) :=
  match l with
  | [] => [(ws, code)]
  | (a, w) :: rest => if a = ws then (a, code) :: rest else (a, w) :: curSet rest ws code

/-- Read `ws.currentRoom`. -/
def curGet (l : List (Conn × String)) (ws : Conn) : Option String :=
  match l with
  | [] => none
  | (a, w) :: rest => if a = ws then some w else curGet rest ws

/-- server.js `join` branch. `getRoom` creates the room when absent; on the
`room_full` reply the registry keeps whatever `getRoom` did (for a fresh code
the room is empty, hence never full, so no empty room is actually left). -/
def joinB (isOpen : Conn → Bool) (st : StateB) (ws : Conn) (s : String) :
    StateB × List Send :=
  if s = "" then (st, [(ws, .errMsg "missing_room")])
  else
    let rooms1 := getRoomAdd st.rooms s
    let r := getRoomObj st.rooms s
    if 2 ≤ r.clients.length then
      ({ st with rooms := rooms1 }, [(ws, .errMsg "room_full")])
    else
      let r' : Room := ⟨setAdd r.clients ws,
        mapSet r.sides ws (assignSide ⟨setAdd r.clients ws, r.sides⟩ ws)⟩
      (⟨updateRoom rooms1 s r', curSet st.cur ws s⟩,
        [(ws, .joined s (assignSide ⟨setAdd r.clients ws, r.sides⟩ ws))] ++
          (match otherClient r' ws with
           | some p =>
             if isOpen p then
               [(p, .peerJoined (assignSide ⟨setAdd r.clients ws, r.sides⟩ ws))]
             else []
           | none => []))

/-- server.js body shared by all non-`join` types once the cached-room check
passed: `getRoom(code)` (which creates the room when absent), then relay for
`move`/`reset`, nothing for unknown types. -/
def relayB (isOpen : Conn → Bool) (st : StateB) (ws : Conn) (t : JsVal) (s : String)
    (data : Nat) : StateB × List Send :=
  let st' : StateB := { st with rooms := getRoomAdd st.rooms s }
  let r := getRoomObj st.rooms s
  if t = .jsStr "move" then
    match otherClient r ws with
    | some p => if isOpen p then (st', [(p, .moveMsg (sideFor r ws) data)]) else (st', [])
    | none => (st', [])
  else if t = .jsStr "reset" then
    match otherClient r ws with
    | some p => if isOpen p then (st', [(p, .resetMsg)]) else (st', [])
    | none => (st', [])
  else (st', [])

/-- server.js message handler. Non-`join` messages pass
`if (!code || ws.currentRoom !== code)` — a check against the connection's
cached room code, not registry membership. -/
def handleMessageB (isOpen : Conn → Bool) (st : StateB) (ws : Conn) (f : Frame) :
    StateB × List Send :=
  match f with
  | .invalid => (st, [(ws, .errMsg "invalid_json")])
  | .msg t roomF data =>
    if t = .jsStr "join" then
      match roomF with
      | .jsStr s => joinB isOpen st ws s
      | _ => (st, [(ws, .errMsg "missing_room")])
    else
      match roomF with
      | .jsStr s =>
        if s = "" then (st, [(ws, .errMsg "not_joined")])
        else if curGet st.cur ws ≠ some s then (st, [(ws, .errMsg "not_joined")])
        else relayB isOpen st ws t s data
      | _ => (st, [(ws, .errMsg "not_joined")])

/-- server.js close handler (`ws.currentRoom` is read but never cleared; the
peer is computed from the room object before the deletions). -/
def closeB (isOpen : Conn → Bool) (st : StateB) (ws : Conn) : StateB × List Send :=
  match curGet st.cur ws with
  | none => (st, [])
  | some code =>
    (StateB.mk
      (if (roomErase (getRoomObj st.rooms code) ws).clients = [] then
        removeRoom (updateRoom (getRoomAdd st.rooms code) code
          (roomErase (getRoomObj st.rooms code) ws)) code
      else
        updateRoom (getRoomAdd st.rooms code) code
          (roomErase (getRoomObj st.rooms code) ws))
      st.cur,
     match otherClient (getRoomObj st.rooms code) ws with
     | some p => if isOpen p then [(p, .peerLeft none)] else []
     | none => [])

/-- server.js heartbeat tick (`wss.clients.forEach`; `return` inside the
callback only skips to the next connection). Result: tracked connections with
updated flags, terminated connections, pinged connections. -/
def sweepTickB : List (Conn × Bool) → List (Conn × Bool) × List Conn × List Conn
  | [] => ([], [], [])
  | (c, alive) :: rest =>
    let res := sweepTickB rest
    if alive then ((c, false) :: res.1, res.2.1, c :: res.2.2)
    else (res.1, c :: res.2.1, res.2.2)

/-- part_000 heartbeat tick (`for (const ws of wss.clients)` with
`return ws.terminate()`: the `return` exits the whole interval callback, so
every connection after the first dead one is skipped this tick). -/
def sweepTickA : List (Conn × Bool) → List (Conn × Bool) × List Conn × List Conn
  | [] => ([], [], [])
  | (c, alive) :: rest =>
    if alive then
      let res := sweepTickA rest
      ((c, false) :: res.1, res.2.1, c :: res.2.2)
    else (rest, [c], [])

/-- The `pong` listener: set the connection's liveness flag back to true. -/
def pongFlag (l : List (Conn × Bool)) (c : Conn) : List (Conn × Bool) :=
  l.map (fun p => if p.1 = c then (p.1, true) else p)

/-- The first registry entry whose room contains `ws` — the room
`leaveEverywhere`'s scan acts on. -/
def firstContaining : Registry → Conn → Option (String × Room)
  | [], _ => none
  | (c, r) :: rest, ws =>
    if ws ∈ r.clients then some (c, r) else firstContaining rest ws

/-- Structural consistency of one room, except non-emptiness: a bounded member
set with no duplicates, a role assignment whose domain is exactly the member
set, whose stored values are genuine roles (never JS `null`), and which is
injective. -/
structure RoomCore (r : Room) : Prop where
  ndClients : r.clients.Nodup
  lenLe : r.clients.length ≤ 2
  ndKeys : (r.sides.map Prod.fst).Nodup
  domEq : ∀ c, c ∈ r.clients ↔ c ∈ r.sides.map Prod.fst
  valSome : ∀ p ∈ r.sides, p.2.isSome = true
  inj : ∀ p ∈ r.sides, ∀ q ∈ r.sides, p.2 = q.2 → p.1 = q.1

/-- The claim's per-room invariant: `RoomCore` plus a non-empty member set. -/
structure RoomOk (r : Room) : Prop where
  core : RoomCore r
  nonempty : r.clients ≠ []

abbrev keysNodup (rooms : Registry) : Prop := (rooms.map Prod.fst).Nodup

/-- The registry invariant for variant A (part_000). -/
def InvariantA (rooms : Registry) : Prop :=
  keysNodup rooms ∧ ∀ p ∈ rooms, RoomOk p.2

/-- Weakened mid-operation invariant: only the room keyed `code` (the one
`getRoom` may have just created empty) is allowed to be empty. -/
def InvExceptA (rooms : Registry) (code : String) : Prop :=
  keysNodup rooms ∧ ∀ p ∈ rooms, RoomCore p.2 ∧ (p.2.clients = [] → p.1 = code)

/-- Registry states of variant A reachable from the empty registry by message,
close and error events (the outputs depend on `isOpen` but the registry does
not, so `isOpen` is existentially absorbed into the step). -/
inductive ReachableA : Registry → Prop
  | init : ReachableA []
  | step (isOpen : Conn → Bool) (st : Registry) (ws : Conn) (f : Frame) :
      ReachableA st → ReachableA (handleMessageA isOpen st ws f).1
  | close (isOpen : Conn → Bool) (st : Registry) (ws : Conn) :
      ReachableA st → ReachableA (closeA isOpen st ws).1

/-- The registry invariant for variant B (server.js), together with the
auxiliary fact making it inductive: every live connection whose cached
`currentRoom` is set is a member of that registered room. -/
def InvariantB (st : StateB) (alive : List Conn) : Prop :=
  InvariantA st.rooms ∧
  ∀ ws ∈ alive, ∀ c, curGet st.cur ws = some c →
    ∃ r, regLookup st.rooms c = some r ∧ ws ∈ r.clients

/-- States of variant B reachable from the initial state: connections are
created fresh, send frames only while live, and close exactly once (the `ws`
transport emits `close` once; afterwards the handle emits nothing). -/
inductive ReachableB : StateB → List Conn → Prop
  | init : ReachableB ⟨[], []⟩ []
  | connect (st : StateB) (alive : List Conn) (ws : Conn) :
      ws ∉ alive → curGet st.cur ws = none →
      ReachableB st alive → ReachableB st (ws :: alive)
  | step (isOpen : Conn → Bool) (st : StateB) (alive : List Conn) (ws : Conn) (f : Frame) :
      ws ∈ alive → ReachableB st alive →
      ReachableB (handleMessageB isOpen st ws f).1 alive
  | close (isOpen : Conn → Bool) (st : StateB) (alive : List Conn) (ws : Conn) :
      ws ∈ alive → ReachableB st alive →
      ReachableB (closeB isOpen st ws).1 (alive.filter (fun x => x != ws))

/-! ### Basic lemmas about the JS `Map`/`Set` embedding -/

theorem regLookup_append (l l' : Registry) (code : String) :
    regLookup (l ++ l') code =
      match regLookup l code with
      | some r => some r
      | none => regLookup l' code := by
  induction l with
  | nil => simp [regLookup]
  | cons p rest ih =>
    obtain ⟨c, r⟩ := p
    by_cases h : c = code <;> simp [regLookup, h, ih]

theorem regLookup_eq_none_iff (rooms : Registry) (code : String) :
    regLookup rooms code = none ↔ code ∉ rooms.map Prod.fst := by
  induction rooms with
  | nil => simp [regLookup]
  | cons p rest ih =>
    obtain ⟨c, r⟩ := p
    by_cases h : c = code
    · subst h
      simp [regLookup]
    · rw [regLookup, if_neg h, ih]
      simp only [List.map_cons, List.mem_cons, not_or]
      exact ⟨fun hn => ⟨fun hq => h hq.symm, hn⟩, fun hn => hn.2⟩

theorem regLookup_isSome_iff (rooms : Registry) (code : String) :
    (regLookup rooms code).isSome = true ↔ code ∈ rooms.map Prod.fst := by
  rw [Option.isSome_iff_ne_none, ne_eq, regLookup_eq_none_iff, not_not]

theorem regLookup_mem {rooms : Registry} {code : String} {r : Room}
    (h : regLookup rooms code = some r) : (code, r) ∈ rooms := by
  induction rooms with
  | nil => simp [regLookup] at h
  | cons p rest ih =>
    obtain ⟨c, r'⟩ := p
    by_cases hc : c = code
    · subst hc
      simp [regLookup] at h
      simp [h]
    · simp [regLookup, hc] at h
      exact List.mem_cons_of_mem _ (ih h)

theorem regLookup_of_mem {rooms : Registry} {code : String} {r : Room}
    (hnd : keysNodup rooms) (h : (code, r) ∈ rooms) : regLookup rooms code = some r := by
  induction rooms with
  | nil => simp at h
  | cons p rest ih =>
    obtain ⟨c, r'⟩ := p
    rcases List.mem_cons.mp h with heq | hmem
    · cases heq
      simp [regLookup]
    · have hc : c ≠ code := by
        rintro rfl
        exact (List.nodup_cons.mp hnd).1 (List.mem_map.mpr ⟨(c, r), hmem, rfl⟩)
      simp [regLookup, hc]
      exact ih (List.nodup_cons.mp hnd).2 hmem

theorem regLookup_updateRoom_ne (rooms : Registry) {d code : String} (r : Room)
    (h : d ≠ code) : regLookup (updateRoom rooms code r) d = regLookup rooms d := by
  induction rooms with
  | nil => simp [updateRoom, regLookup]
  | cons p rest ih =>
    obtain ⟨c, r'⟩ := p
    by_cases hc : c = code
    · subst hc
      have hcd : c ≠ d := fun hq => h hq.symm
      simp [updateRoom, regLookup, Ne.symm h, hcd, ih]
    · by_cases hd : c = d <;> simp [updateRoom, regLookup, hc, hd, h, ih]

theorem regLookup_updateRoom_self {rooms : Registry} {code : String} (r : Room)
    (h : (regLookup rooms code).isSome = true) :
    regLookup (updateRoom rooms code r) code = some r := by
  induction rooms with
  | nil => simp [regLookup] at h
  | cons p rest ih =>
    obtain ⟨c, r'⟩ := p
    by_cases hc : c = code
    · subst hc
      simp [updateRoom, regLookup]
    · simp [regLookup, hc] at h
      simp [updateRoom, regLookup, hc, ih h]

theorem keys_updateRoom (rooms : Registry) (code : String) (r : Room) :
    (updateRoom rooms code r).map Prod.fst = rooms.map Prod.fst := by
  induction rooms with
  | nil => simp [updateRoom]
  | cons p rest ih =>
    obtain ⟨c, r'⟩ := p
    by_cases hc : c = code
    · subst hc
      simp [updateRoom, ih]
    · simp [updateRoom, hc, ih]

theorem mem_updateRoom {rooms : Registry} {code : String} {r : Room} {p : String × Room}
    (h : p ∈ updateRoom rooms code r) : p = (code, r) ∨ (p ∈ rooms ∧ p.1 ≠ code) := by
  induction rooms with
  | nil => simp [updateRoom] at h
  | cons q rest ih =>
    obtain ⟨c, r'⟩ := q
    by_cases hc : c = code
    · subst hc
      rw [updateRoom, if_pos rfl] at h
      rcases List.mem_cons.mp h with h | h
      · exact Or.inl h
      · rcases ih h with h' | h'
        · exact Or.inl h'
        · exact Or.inr ⟨List.mem_cons_of_mem _ h'.1, h'.2⟩
    · rw [updateRoom, if_neg hc] at h
      rcases List.mem_cons.mp h with h | h
      · subst h
        exact Or.inr ⟨List.mem_cons_self _ _, hc⟩
      · rcases ih h with h' | h'
        · exact Or.inl h'
        · exact Or.inr ⟨List.mem_cons_of_mem _ h'.1, h'.2⟩

theorem regLookup_removeRoom_ne (rooms : Registry) {d code : String}
    (h : d ≠ code) : regLookup (removeRoom rooms code) d = regLookup rooms d := by
  induction rooms with
  | nil => simp [removeRoom, regLookup]
  | cons p rest ih =>
    obtain ⟨c, r'⟩ := p
    by_cases hc : c = code
    · subst hc
      have hcd : c ≠ d := fun hq => h hq.symm
      simp [removeRoom, regLookup, hcd, ih]
    · by_cases hd : c = d <;> simp [removeRoom, regLookup, hc, hd, h, ih]

theorem mem_removeRoom {rooms : Registry} {code : String} {p : String × Room}
    (h : p ∈ removeRoom rooms code) : p ∈ rooms ∧ p.1 ≠ code := by
  induction rooms with
  | nil => simp [removeRoom] at h
  | cons q rest ih =>
    obtain ⟨c, r'⟩ := q
    by_cases hc : c = code
    · subst hc
      rw [removeRoom, if_pos rfl] at h
      exact ⟨List.mem_cons_of_mem _ (ih h).1, (ih h).2⟩
    · rw [removeRoom, if_neg hc] at h
      rcases List.mem_cons.mp h with h | h
      · subst h
        exact ⟨List.mem_cons_self _ _, hc⟩
      · exact ⟨List.mem_cons_of_mem _ (ih h).1, (ih h).2⟩

theorem keys_removeRoom_sublist (rooms : Registry) (code : String) :
    ((removeRoom rooms code).map Prod.fst).Sublist (rooms.map Prod.fst) := by
  induction rooms with
  | nil => simp [removeRoom]
  | cons q rest ih =>
    obtain ⟨c, r'⟩ := q
    by_cases hc : c = code
    · subst hc
      rw [removeRoom, if_pos rfl]
      exact ih.trans (List.sublist_cons_self _ _)
    · rw [removeRoom, if_neg hc]
      simpa using ih.cons₂ c

theorem getRoomAdd_of_isSome {rooms : Registry} {code : String}
    (h : (regLookup rooms code).isSome = true) : getRoomAdd rooms code = rooms := by
  simp [getRoomAdd, h]

theorem regLookup_getRoomAdd_self (rooms : Registry) (code : String) :
    regLookup (getRoomAdd rooms code) code = some ((regLookup rooms code).getD emptyRoom) := by
  unfold getRoomAdd
  cases h : regLookup rooms code with
  | some r => simp [h]
  | none => simp [h, regLookup_append, regLookup]

theorem regLookup_getRoomAdd_ne (rooms : Registry) {d code : String} (h : d ≠ code) :
    regLookup (getRoomAdd rooms code) d = regLookup rooms d := by
  unfold getRoomAdd
  cases hs : (regLookup rooms code).isSome with
  | true => simp
  | false =>
    simp only [Bool.false_eq_true, if_false, regLookup_append]
    cases hd : regLookup rooms d with
    | some r => simp
    | none => simp [regLookup, Ne.symm h]

theorem getRoomObj_eq (rooms : Registry) (code : String) :
    getRoomObj rooms code = (regLookup rooms code).getD emptyRoom := by
  simp [getRoomObj, regLookup_getRoomAdd_self]

theorem keysNodup_getRoomAdd {rooms : Registry} (code : String)
    (h : keysNodup rooms) : keysNodup (getRoomAdd rooms code) := by
  unfold getRoomAdd
  cases hs : (regLookup rooms code).isSome with
  | true => simpa [keysNodup]
  | false =>
    have habs : code ∉ rooms.map Prod.fst := by
      rw [← regLookup_eq_none_iff]
      simpa [Option.isSome_iff_ne_none, not_not] using hs
    simp only [Bool.false_eq_true, if_false, keysNodup, List.map_append]
    exact List.nodup_append.mpr ⟨h, List.nodup_singleton _, by
      intro a ha hb
      simp at hb
      subst hb
      exact habs ha⟩

theorem mem_getRoomAdd {rooms : Registry} {code : String} {p : String × Room}
    (h : p ∈ getRoomAdd rooms code) : p ∈ rooms ∨ p = (code, emptyRoom) := by
  unfold getRoomAdd at h
  cases hs : (regLookup rooms code).isSome with
  | true => simp [hs] at h; exact Or.inl h
  | false => simp [hs] at h; exact h

/-! ### Lemmas about rooms' member sets and role maps -/

theorem mem_setAdd {l : List Conn} {a c : Conn} :
    a ∈ setAdd l c ↔ a ∈ l ∨ a = c := by
  unfold setAdd
  by_cases h : c ∈ l
  · simp only [if_pos h]
    exact ⟨Or.inl, fun hh => hh.elim id (fun he => he ▸ h)⟩
  · simp [if_neg h]

theorem nodup_setAdd {l : List Conn} (c : Conn) (h : l.Nodup) : (setAdd l c).Nodup := by
  unfold setAdd
  by_cases hm : c ∈ l
  · simpa [hm]
  · simp only [if_neg hm]
    exact List.nodup_append.mpr ⟨h, List.nodup_singleton _, by
      intro a ha hb
      simp at hb
      subst hb
      exact hm ha⟩

theorem setAdd_ne_nil (l : List Conn) (c : Conn) : setAdd l c ≠ [] := by
  unfold setAdd
  by_cases hm : c ∈ l
  · simp only [if_pos hm]
    exact List.ne_nil_of_mem hm
  · simp [if_neg hm]

theorem length_setAdd_le (l : List Conn) (c : Conn) :
    (setAdd l c).length ≤ l.length + 1 := by
  unfold setAdd
  by_cases hm : c ∈ l <;> simp [hm]

theorem mem_setDelete {l : List Conn} {a c : Conn} :
    a ∈ setDelete l c ↔ a ∈ l ∧ a ≠ c := by
  simp [setDelete, List.mem_filter, bne_iff_ne]

theorem setDelete_sublist (l : List Conn) (c : Conn) : (setDelete l c).Sublist l :=
  List.filter_sublist l

theorem mapGet_eq_none_iff (m : List (Conn × Option Side)) (c : Conn) :
    mapGet m c = none ↔ c ∉ m.map Prod.fst := by
  induction m with
  | nil => simp [mapGet]
  | cons p rest ih =>
    obtain ⟨a, v⟩ := p
    by_cases h : a = c
    · subst h
      simp [mapGet]
    · rw [mapGet, if_neg h, ih]
      simp only [List.map_cons, List.mem_cons, not_or]
      exact ⟨fun hn => ⟨fun hq => h hq.symm, hn⟩, fun hn => hn.2⟩

theorem mem_keys_mapSet {m : List (Conn × Option Side)} {a c : Conn} {v : Option Side} :
    a ∈ (mapSet m c v).map Prod.fst ↔ a ∈ m.map Prod.fst ∨ a = c := by
  induction m with
  | nil => simp [mapSet]
  | cons p rest ih =>
    obtain ⟨b, w⟩ := p
    by_cases h : b = c
    · subst h
      rw [mapSet, if_pos rfl]
      simp only [List.map_cons, List.mem_cons]
      tauto
    · rw [mapSet, if_neg h]
      simp only [List.map_cons, List.mem_cons, ih]
      tauto

theorem nodup_keys_mapSet {m : List (Conn × Option Side)} {c : Conn} {v : Option Side}
    (h : (m.map Prod.fst).Nodup) : ((mapSet m c v).map Prod.fst).Nodup := by
  induction m with
  | nil => simp [mapSet]
  | cons p rest ih =>
    obtain ⟨b, w⟩ := p
    simp only [List.map_cons, List.nodup_cons] at h
    by_cases hb : b = c
    · subst hb
      simpa [mapSet] using h
    · rw [mapSet, if_neg hb]
      simp only [List.map_cons, List.nodup_cons]
      refine ⟨fun hmem => ?_, ih h.2⟩
      rcases mem_keys_mapSet.mp hmem with hmem | hmem
      · exact h.1 hmem
      · exact hb hmem

theorem mem_mapSet_nodup {m : List (Conn × Option Side)} {c : Conn} {v : Option Side}
    {p : Conn × Option Side} (hnd : (m.map Prod.fst).Nodup) (h : p ∈ mapSet m c v) :
    p = (c, v) ∨ (p ∈ m ∧ p.1 ≠ c) := by
  induction m with
  | nil => simpa [mapSet] using h
  | cons q rest ih =>
    obtain ⟨b, w⟩ := q
    simp only [List.map_cons, List.nodup_cons] at hnd
    by_cases hb : b = c
    · subst hb
      rw [mapSet, if_pos rfl] at h
      rcases List.mem_cons.mp h with h | h
      · exact Or.inl h
      · right
        refine ⟨List.mem_cons_of_mem _ h, fun he => ?_⟩
        exact hnd.1 (he ▸ List.mem_map.mpr ⟨p, h, rfl⟩)
    · rw [mapSet, if_neg hb] at h
      rcases List.mem_cons.mp h with h | h
      · subst h
        exact Or.inr ⟨List.mem_cons_self _ _, hb⟩
      · rcases ih hnd.2 h with h' | h'
        · exact Or.inl h'
        · exact Or.inr ⟨List.mem_cons_of_mem _ h'.1, h'.2⟩

theorem mem_mapSet_weak {m : List (Conn × Option Side)} {c : Conn} {v : Option Side}
    {p : Conn × Option Side} (h : p ∈ mapSet m c v) : p = (c, v) ∨ p ∈ m := by
  induction m with
  | nil => simpa [mapSet] using h
  | cons q rest ih =>
    obtain ⟨b, w⟩ := q
    by_cases hb : b = c
    · subst hb
      rw [mapSet, if_pos rfl] at h
      rcases List.mem_cons.mp h with h | h
      · exact Or.inl h
      · exact Or.inr (List.mem_cons_of_mem _ h)
    · rw [mapSet, if_neg hb] at h
      rcases List.mem_cons.mp h with h | h
      · exact Or.inr (h ▸ List.mem_cons_self _ _)
      · rcases ih h with h' | h'
        · exact Or.inl h'
        · exact Or.inr (List.mem_cons_of_mem _ h')

theorem keys_mapDelete (m : List (Conn × Option Side)) (c : Conn) :
    (mapDelete m c).map Prod.fst = (m.map Prod.fst).filter (fun x => x != c) := by
  induction m with
  | nil => simp [mapDelete]
  | cons p rest ih =>
    obtain ⟨b, w⟩ := p
    by_cases hb : b = c
    · subst hb
      simp [mapDelete, List.filter_cons] at ih ⊢
      exact ih
    · simp [mapDelete, List.filter_cons, hb, bne_iff_ne] at ih ⊢
      exact ih

theorem mem_mapDelete {m : List (Conn × Option Side)} {c : Conn}
    {p : Conn × Option Side} : p ∈ mapDelete m c ↔ p ∈ m ∧ p.1 ≠ c := by
  simp [mapDelete, List.mem_filter, bne_iff_ne]

/-! ### `chooseSide` lemmas -/

theorem chooseSide_eq_none_iff (r : Room) :
    chooseSide r = none ↔
      some Side.X ∈ r.sides.map Prod.snd ∧ some Side.O ∈ r.sides.map Prod.snd := by
  unfold chooseSide
  by_cases hx : some Side.X ∈ r.sides.map Prod.snd <;>
    by_cases ho : some Side.O ∈ r.sides.map Prod.snd <;> simp [hx, ho]

theorem chooseSide_not_mem {r : Room} {s : Side} (h : chooseSide r = some s) :
    some s ∉ r.sides.map Prod.snd := by
  unfold chooseSide at h
  by_cases hx : some Side.X ∈ r.sides.map Prod.snd
  · by_cases ho : some Side.O ∈ r.sides.map Prod.snd
    · simp [hx, ho] at h
    · simp [hx, ho] at h
      exact h ▸ ho
  · simp [hx] at h
    exact h ▸ hx

theorem chooseSide_isSome_of_len {r : Room} (h : r.sides.length ≤ 1) :
    (chooseSide r).isSome = true := by
  match hs : r.sides with
  | [] => simp [chooseSide, hs]
  | [(a, v)] =>
    unfold chooseSide
    rw [hs]
    match v with
    | none => simp
    | some Side.X => simp
    | some Side.O => simp
  | p :: q :: rest => rw [hs] at h; simp at h

theorem sides_len_le_one_of_chooseSide_some {r : Room} {s : Side}
    (hk : (r.sides.map Prod.fst).Nodup)
    (hv : ∀ p ∈ r.sides, p.2.isSome = true)
    (hinj : ∀ p ∈ r.sides, ∀ q ∈ r.sides, p.2 = q.2 → p.1 = q.1)
    (h : chooseSide r = some s) : r.sides.length ≤ 1 := by
  match hs : r.sides with
  | [] => simp
  | [_] => simp
  | (a, v) :: (b, w) :: rest =>
    exfalso
    have hmema : (a, v) ∈ r.sides := by rw [hs]; exact List.mem_cons_self _ _
    have hmemb : (b, w) ∈ r.sides := by
      rw [hs]; exact List.mem_cons_of_mem _ (List.mem_cons_self _ _)
    obtain ⟨sv, hsv⟩ := Option.isSome_iff_exists.mp (hv _ hmema)
    obtain ⟨sw, hsw⟩ := Option.isSome_iff_exists.mp (hv _ hmemb)
    have hvs : v = some sv := hsv
    have hws : w = some sw := hsw
    have hab : a ≠ b := by
      rw [hs] at hk
      simp only [List.map_cons, List.nodup_cons, List.mem_cons] at hk
      exact fun he => hk.1 (Or.inl he)
    have hvw : v ≠ w := fun he => hab (hinj _ hmema _ hmemb he)
    have hsvw : sv ≠ sw := fun he => hvw (by rw [hvs, hws, he])
    have hboth : some Side.X ∈ r.sides.map Prod.snd ∧
        some Side.O ∈ r.sides.map Prod.snd := by
      have hma : v ∈ r.sides.map Prod.snd := List.mem_map.mpr ⟨(a, v), hmema, rfl⟩
      have hmb : w ∈ r.sides.map Prod.snd := List.mem_map.mpr ⟨(b, w), hmemb, rfl⟩
      match sv, sw, hsvw with
      | Side.X, Side.O, _ => exact ⟨hvs ▸ hma, hws ▸ hmb⟩
      | Side.O, Side.X, _ => exact ⟨hws ▸ hmb, hvs ▸ hma⟩
      | Side.X, Side.X, hne => exact absurd rfl hne
      | Side.O, Side.O, hne => exact absurd rfl hne
    rw [(chooseSide_eq_none_iff r).mpr hboth] at h
    exact Option.noConfusion h

theorem assignSide_eq_chooseSide (r : Room) (ws : Conn) :
    assignSide r ws = chooseSide r := rfl

/-! ### `broadcast` and `roomErase` lemmas -/

theorem broadcast_snd {isOpen : Conn → Bool} {r : Room} {m : OutMsg}
    {except : Option Conn} {x : Send} (h : x ∈ broadcast isOpen r m except) :
    x.2 = m := by
  obtain ⟨c, _, rfl⟩ := List.mem_map.mp h
  rfl

theorem broadcast_pair (isOpen : Conn → Bool) (r : Room) (m : OutMsg) (e ws : Conn)
    (hlist : r.clients = [ws, e] ∨ r.clients = [e, ws]) (hopen : isOpen e = true)
    (hne : e ≠ ws) : broadcast isOpen r m (some ws) = [(e, m)] := by
  rcases hlist with h | h <;>
    simp [broadcast, h, List.filter_cons, hopen, bne_iff_ne, hne]

theorem roomErase_not_mem (r : Room) (ws : Conn) :
    ws ∉ (roomErase r ws).clients := by
  intro h
  exact (mem_setDelete.mp h).2 rfl

theorem roomErase_core {r : Room} (ws : Conn) (h : RoomCore r) :
    RoomCore (roomErase r ws) := by
  constructor
  · exact (setDelete_sublist _ _).nodup h.ndClients
  · exact le_trans (setDelete_sublist _ _).length_le h.lenLe
  · rw [roomErase, keys_mapDelete]
    exact (List.filter_sublist _).nodup h.ndKeys
  · intro c
    rw [roomErase]
    show c ∈ setDelete r.clients ws ↔ _
    rw [mem_setDelete, keys_mapDelete, List.mem_filter]
    simp only [bne_iff_ne]
    exact and_congr_left (fun _ => h.domEq c)
  · intro p hp
    exact h.valSome p (mem_mapDelete.mp hp).1
  · intro p hp q hq
    exact h.inj p (mem_mapDelete.mp hp).1 q (mem_mapDelete.mp hq).1

theorem mem_roomErase_clients {r : Room} {ws a : Conn} :
    a ∈ (roomErase r ws).clients ↔ a ∈ r.clients ∧ a ≠ ws := mem_setDelete

/-! ### `leaveEverywhere` lemmas (variant A) -/

theorem removeRoom_not_mem {rooms : Registry} {code : String}
    (h : ∀ p ∈ rooms, p.1 ≠ code) : removeRoom rooms code = rooms := by
  induction rooms with
  | nil => rfl
  | cons q rest ih =>
    obtain ⟨c, r⟩ := q
    rw [removeRoom, if_neg (h (c, r) (List.mem_cons_self _ _))]
    rw [ih (fun p hp => h p (List.mem_cons_of_mem _ hp))]

theorem updateRoom_not_mem {rooms : Registry} {code : String} {r : Room}
    (h : ∀ p ∈ rooms, p.1 ≠ code) : updateRoom rooms code r = rooms := by
  induction rooms with
  | nil => rfl
  | cons q rest ih =>
    obtain ⟨c, r'⟩ := q
    rw [updateRoom, if_neg (h (c, r') (List.mem_cons_self _ _))]
    rw [ih (fun p hp => h p (List.mem_cons_of_mem _ hp))]

theorem firstContaining_eq_none_iff (rooms : Registry) (ws : Conn) :
    firstContaining rooms ws = none ↔ ∀ p ∈ rooms, ws ∉ p.2.clients := by
  induction rooms with
  | nil => simp [firstContaining]
  | cons q rest ih =>
    obtain ⟨c, r⟩ := q
    by_cases h : ws ∈ r.clients
    · simp [firstContaining, h]
    · rw [firstContaining, if_neg h, ih]
      constructor
      · intro hall p hp
        rcases List.mem_cons.mp hp with rfl | hp
        · exact h
        · exact hall p hp
      · intro hall p hp
        exact hall p (List.mem_cons_of_mem _ hp)

theorem leaveA_of_none {isOpen : Conn → Bool} {rooms : Registry} {ws : Conn}
    (h : firstContaining rooms ws = none) :
    leaveEverywhereA isOpen rooms ws = (rooms, []) := by
  induction rooms with
  | nil => simp [leaveEverywhereA]
  | cons q rest ih =>
    obtain ⟨c, r⟩ := q
    by_cases hm : ws ∈ r.clients
    · rw [firstContaining, if_pos hm] at h
      exact Option.noConfusion h
    · rw [firstContaining, if_neg hm] at h
      rw [leaveEverywhereA, if_neg hm, ih h]

theorem firstContaining_mem {rooms : Registry} {ws : Conn} {p : String × Room}
    (h : firstContaining rooms ws = some p) : p ∈ rooms ∧ ws ∈ p.2.clients := by
  induction rooms with
  | nil => simp [firstContaining] at h
  | cons q rest ih =>
    obtain ⟨c, r⟩ := q
    by_cases hm : ws ∈ r.clients
    · rw [firstContaining, if_pos hm] at h
      cases h
      exact ⟨List.mem_cons_self _ _, hm⟩
    · rw [firstContaining, if_neg hm] at h
      exact ⟨List.mem_cons_of_mem _ (ih h).1, (ih h).2⟩

/-- The full characterization of `leaveEverywhere` when some room contains
`ws`: the first such room (key `c`, state `R`) loses `ws`, `peer_left` goes to
its remaining open members, and the room is evicted when emptied. The
key-uniqueness hypothesis matches JS `Map` semantics. -/
theorem leaveA_spec {isOpen : Conn → Bool} {rooms : Registry} {ws : Conn}
    {c : String} {R : Room} (hnd : keysNodup rooms)
    (hf : firstContaining rooms ws = some (c, R)) :
    leaveEverywhereA isOpen rooms ws =
      (if (roomErase R ws).clients = [] then removeRoom rooms c
       else updateRoom rooms c (roomErase R ws),
       broadcast isOpen (roomErase R ws) (.peerLeft (some c)) none) := by
  induction rooms with
  | nil => simp [firstContaining] at hf
  | cons q rest ih =>
    obtain ⟨c₀, r₀⟩ := q
    have hnd' : keysNodup rest := (List.nodup_cons.mp hnd).2
    by_cases hm : ws ∈ r₀.clients
    · rw [firstContaining, if_pos hm] at hf
      obtain ⟨rfl, rfl⟩ : c₀ = c ∧ r₀ = R := by cases hf; exact ⟨rfl, rfl⟩
      have hrest : ∀ p ∈ rest, p.1 ≠ c₀ := by
        intro p hp he
        exact (List.nodup_cons.mp hnd).1 (he ▸ List.mem_map.mpr ⟨p, hp, rfl⟩)
      rw [leaveEverywhereA, if_pos hm]
      rw [removeRoom, if_pos rfl, removeRoom_not_mem hrest]
      rw [updateRoom, if_pos rfl, updateRoom_not_mem hrest]
    · rw [firstContaining, if_neg hm] at hf
      have hcc : c₀ ≠ c := by
        intro he
        have := (firstContaining_mem hf).1
        exact (List.nodup_cons.mp hnd).1 (he ▸ List.mem_map.mpr ⟨(c, R), this, rfl⟩)
      rw [leaveEverywhereA, if_neg hm, ih hnd' hf]
      rw [removeRoom, if_neg hcc, updateRoom, if_neg hcc]
      by_cases he : (roomErase R ws).clients = [] <;> simp [he]

/-- Every entry of the registry after `leaveEverywhere` is either an original
entry or the first `ws`-containing entry with `ws` erased (kept only when
still non-empty). -/
theorem leaveA_mem {isOpen : Conn → Bool} {rooms : Registry} {ws : Conn}
    {p : String × Room} (h : p ∈ (leaveEverywhereA isOpen rooms ws).1) :
    p ∈ rooms ∨ ∃ q ∈ rooms, p = (q.1, roomErase q.2 ws) ∧
      (roomErase q.2 ws).clients ≠ [] := by
  induction rooms with
  | nil => simp [leaveEverywhereA] at h
  | cons q rest ih =>
    obtain ⟨c, r⟩ := q
    by_cases hm : ws ∈ r.clients
    · rw [leaveEverywhereA, if_pos hm] at h
      by_cases he : (roomErase r ws).clients = []
      · rw [if_pos he] at h
        exact Or.inl (List.mem_cons_of_mem _ h)
      · rw [if_neg he] at h
        rcases List.mem_cons.mp h with h | h
        · exact Or.inr ⟨(c, r), List.mem_cons_self _ _, h, he⟩
        · exact Or.inl (List.mem_cons_of_mem _ h)
    · rw [leaveEverywhereA, if_neg hm] at h
      rcases List.mem_cons.mp h with h | h
      · exact Or.inl (h ▸ List.mem_cons_self _ _)
      · rcases ih h with h' | ⟨q', hq', hpe, hne⟩
        · exact Or.inl (List.mem_cons_of_mem _ h')
        · exact Or.inr ⟨q', List.mem_cons_of_mem _ hq', hpe, hne⟩

theorem leaveA_keys_sublist (isOpen : Conn → Bool) (rooms : Registry) (ws : Conn) :
    ((leaveEverywhereA isOpen rooms ws).1.map Prod.fst).Sublist (rooms.map Prod.fst) := by
  induction rooms with
  | nil => simp [leaveEverywhereA]
  | cons q rest ih =>
    obtain ⟨c, r⟩ := q
    by_cases hm : ws ∈ r.clients
    · rw [leaveEverywhereA, if_pos hm]
      by_cases he : (roomErase r ws).clients = []
      · rw [if_pos he]
        exact (List.sublist_cons_self _ _).map Prod.fst
      · rw [if_neg he]
        simp only [List.map_cons]
        exact (List.Sublist.refl _).cons₂ c
    · rw [leaveEverywhereA, if_neg hm]
      simpa using ih.cons₂ c

theorem leaveA_keysNodup {isOpen : Conn → Bool} {rooms : Registry} (ws : Conn)
    (h : keysNodup rooms) : keysNodup (leaveEverywhereA isOpen rooms ws).1 :=
  (leaveA_keys_sublist isOpen rooms ws).nodup h

/-- A room not containing `ws` is untouched by `leaveEverywhere`. -/
theorem leaveA_regLookup_of_not_mem {isOpen : Conn → Bool} {rooms : Registry}
    {ws : Conn} {code : String} {r : Room} (h : regLookup rooms code = some r)
    (hm : ws ∉ r.clients) :
    regLookup (leaveEverywhereA isOpen rooms ws).1 code = some r := by
  induction rooms with
  | nil => simp [regLookup] at h
  | cons q rest ih =>
    obtain ⟨c, r₀⟩ := q
    by_cases hc : c = code
    · subst hc
      rw [regLookup, if_pos rfl] at h
      cases h
      rw [leaveEverywhereA, if_neg hm]
      simp [regLookup]
    · rw [regLookup, if_neg hc] at h
      by_cases hm₀ : ws ∈ r₀.clients
      · rw [leaveEverywhereA, if_pos hm₀]
        by_cases he : (roomErase r₀ ws).clients = []
        · rw [if_pos he]
          exact h
        · rw [if_neg he]
          simpa [regLookup, hc] using h
      · rw [leaveEverywhereA, if_neg hm₀]
        simpa [regLookup, hc] using ih h

/-! ### Invariant preservation, variant A -/

theorem invExceptA_of_invariantA {rooms : Registry} (code : String)
    (h : InvariantA rooms) : InvExceptA rooms code :=
  ⟨h.1, fun p hp => ⟨(h.2 p hp).core, fun he => absurd he (h.2 p hp).nonempty⟩⟩

theorem emptyRoom_core : RoomCore emptyRoom := by
  constructor <;> simp [emptyRoom]

theorem invExceptA_getRoomAdd {rooms : Registry} {code : String}
    (h : InvariantA rooms) : InvExceptA (getRoomAdd rooms code) code := by
  refine ⟨keysNodup_getRoomAdd code h.1, fun p hp => ?_⟩
  rcases mem_getRoomAdd hp with hp' | rfl
  · exact ⟨(h.2 p hp').core, fun he => absurd he (h.2 p hp').nonempty⟩
  · exact ⟨emptyRoom_core, fun _ => rfl⟩

theorem invExceptA_leave {isOpen : Conn → Bool} {rooms : Registry} {ws : Conn}
    {code : String} (h : InvExceptA rooms code) :
    InvExceptA (leaveEverywhereA isOpen rooms ws).1 code := by
  refine ⟨leaveA_keysNodup ws h.1, fun p hp => ?_⟩
  rcases leaveA_mem hp with hp' | ⟨q, hq, rfl, hne⟩
  · exact h.2 p hp'
  · exact ⟨roomErase_core ws (h.2 q hq).1, fun he => absurd he hne⟩

theorem invariantA_of_absent {rooms : Registry} {code : String}
    (h : InvExceptA rooms code) (ha : regLookup rooms code = none) :
    InvariantA rooms := by
  refine ⟨h.1, fun p hp => ⟨(h.2 p hp).1, fun he => ?_⟩⟩
  have hc := (h.2 p hp).2 he
  rw [regLookup_eq_none_iff] at ha
  exact ha (hc ▸ List.mem_map.mpr ⟨p, hp, rfl⟩)

theorem clients_len_le_sides_len {r : Room} (hc : RoomCore r) :
    r.clients.length ≤ r.sides.length := by
  have hsub : r.clients ⊆ r.sides.map Prod.fst := fun a ha => (hc.domEq a).mp ha
  have := (List.subperm_of_subset hc.ndClients hsub).length_le
  simpa using this

theorem nonempty_of_chooseSide_none {r : Room} (hc : RoomCore r)
    (hcs : chooseSide r = none) : r.clients ≠ [] := by
  intro he
  have hx := (chooseSide_eq_none_iff r).mp hcs
  obtain ⟨p, hp, _⟩ := List.mem_map.mp hx.1
  have := (hc.domEq p.1).mpr (List.mem_map.mpr ⟨p, hp, rfl⟩)
  rw [he] at this
  exact List.not_mem_nil _ this

theorem invariantA_of_full {rooms : Registry} {code : String} {rCur : Room}
    (h : InvExceptA rooms code) (hl : regLookup rooms code = some rCur)
    (hcs : chooseSide rCur = none) : InvariantA rooms := by
  refine ⟨h.1, fun p hp => ⟨(h.2 p hp).1, fun he => ?_⟩⟩
  have hc := (h.2 p hp).2 he
  obtain ⟨c, r⟩ := p
  simp only at hc he
  subst hc
  have hr := regLookup_of_mem h.1 hp
  rw [hl] at hr
  cases hr
  exact absurd he (nonempty_of_chooseSide_none (h.2 _ hp).1 hcs)

/-- The freshly joined room satisfies the full invariant. -/
theorem roomOk_after_join {rCur : Room} {ws : Conn} {side : Side}
    (hcore : RoomCore rCur) (hcs : chooseSide rCur = some side) :
    RoomOk ⟨setAdd rCur.clients ws, mapSet rCur.sides ws (some side)⟩ := by
  have hlen1 : rCur.sides.length ≤ 1 :=
    sides_len_le_one_of_chooseSide_some hcore.ndKeys hcore.valSome hcore.inj hcs
  have hclen : rCur.clients.length ≤ 1 :=
    le_trans (clients_len_le_sides_len hcore) hlen1
  refine ⟨⟨?_, ?_, ?_, ?_, ?_, ?_⟩, ?_⟩
  · exact nodup_setAdd ws hcore.ndClients
  · exact le_trans (length_setAdd_le _ _) (by omega)
  · exact nodup_keys_mapSet hcore.ndKeys
  · intro c
    show c ∈ setAdd rCur.clients ws ↔ _
    rw [mem_setAdd, mem_keys_mapSet]
    exact or_congr_left (hcore.domEq c)
  · intro p hp
    rcases mem_mapSet_weak hp with rfl | hp'
    · rfl
    · exact hcore.valSome p hp'
  · intro p hp q hq hv
    rcases mem_mapSet_nodup hcore.ndKeys hp with rfl | ⟨hp', hpne⟩ <;>
      rcases mem_mapSet_nodup hcore.ndKeys hq with h2 | ⟨hq', hqne⟩
    · rw [h2]
    · exfalso
      have hv' : some side = q.2 := hv
      have hmem : q.2 ∈ rCur.sides.map Prod.snd := List.mem_map.mpr ⟨q, hq', rfl⟩
      rw [← hv'] at hmem
      exact chooseSide_not_mem hcs hmem
    · exfalso
      rw [h2] at hv
      have hv' : p.2 = some side := hv
      have hmem : p.2 ∈ rCur.sides.map Prod.snd := List.mem_map.mpr ⟨p, hp', rfl⟩
      rw [hv'] at hmem
      exact chooseSide_not_mem hcs hmem
    · exact hcore.inj p hp' q hq' hv
  · exact setAdd_ne_nil _ _

theorem invariantA_update {rooms : Registry} {code : String} {rFin : Room}
    (h : InvExceptA rooms code) (hOk : RoomOk rFin) :
    InvariantA (updateRoom rooms code rFin) := by
  constructor
  · show (List.map Prod.fst _).Nodup
    rw [keys_updateRoom]
    exact h.1
  · intro p hp
    rcases mem_updateRoom hp with rfl | ⟨hp', hpne⟩
    · exact hOk
    · exact ⟨(h.2 p hp').1, fun he => absurd ((h.2 p hp').2 he) hpne⟩

theorem moveA_fst (isOpen : Conn → Bool) (rooms : Registry) (ws : Conn)
    (code : String) (data : Nat) : (moveA isOpen rooms ws code data).1 = rooms := by
  rw [moveA]
  cases hl : regLookup rooms code with
  | none => rfl
  | some r => by_cases hw : ws ∈ r.clients <;> simp [hw]

theorem resetA_fst (isOpen : Conn → Bool) (rooms : Registry) (ws : Conn)
    (code : String) : (resetA isOpen rooms ws code).1 = rooms := by
  rw [resetA]
  cases hl : regLookup rooms code with
  | none => rfl
  | some r => by_cases hw : ws ∈ r.clients <;> simp [hw]

theorem handleA_fst_eq_of_not_join {isOpen : Conn → Bool} {rooms : Registry}
    {ws : Conn} {t roomF : JsVal} {data : Nat} (ht : t ≠ .jsStr "join") :
    (handleMessageA isOpen rooms ws (.msg t roomF data)).1 = rooms := by
  rw [handleMessageA]
  by_cases htr : jsTruthy t = false
  · rw [if_pos htr]
  · rw [if_neg htr, if_neg ht]
    by_cases hmv : t = JsVal.jsStr "move"
    · rw [if_pos hmv, moveA_fst]
    · rw [if_neg hmv]
      by_cases hrs : t = JsVal.jsStr "reset"
      · rw [if_pos hrs, resetA_fst]
      · rw [if_neg hrs]

/-- The join branch of variant A preserves the registry invariant. -/
theorem invariantA_joinA {isOpen : Conn → Bool} {rooms : Registry} {ws : Conn}
    {code : String} (h : InvariantA rooms) :
    InvariantA (joinA isOpen rooms ws code).1 := by
  rw [joinA]
  by_cases hc : code = ""
  · rw [if_pos hc]
    exact h
  · rw [if_neg hc]
    have h2 : InvExceptA
        (leaveEverywhereA isOpen (getRoomAdd rooms code) ws).1 code :=
      invExceptA_leave (invExceptA_getRoomAdd h)
    cases hl : regLookup
        (leaveEverywhereA isOpen (getRoomAdd rooms code) ws).1 code with
    | none =>
      cases hcs : chooseSide (roomErase (getRoomObj rooms code) ws) with
      | none =>
        simp only [hl, hcs]
        exact invariantA_of_absent h2 hl
      | some side =>
        simp only [hl, hcs]
        exact invariantA_of_absent h2 hl
    | some rCur =>
      have hcore : RoomCore rCur := (h2.2 (code, rCur) (regLookup_mem hl)).1
      cases hcs : chooseSide rCur with
      | none =>
        simp only [hl, hcs]
        exact invariantA_of_full h2 hl hcs
      | some side =>
        simp only [hl, hcs]
        exact invariantA_update h2 (roomOk_after_join hcore hcs)

theorem invariantA_leave {isOpen : Conn → Bool} {rooms : Registry} (ws : Conn)
    (h : InvariantA rooms) : InvariantA (leaveEverywhereA isOpen rooms ws).1 := by
  refine ⟨leaveA_keysNodup ws h.1, fun p hp => ?_⟩
  rcases leaveA_mem hp with hp' | ⟨q, hq, rfl, hne⟩
  · exact h.2 p hp'
  · exact ⟨roomErase_core ws (h.2 q hq).core, hne⟩

/-- Every variant-A step preserves the registry invariant. -/
theorem invariantA_step {isOpen : Conn → Bool} {rooms : Registry} {ws : Conn}
    {f : Frame} (h : InvariantA rooms) :
    InvariantA (handleMessageA isOpen rooms ws f).1 := by
  match f with
  | .invalid => exact h
  | .msg t roomF data =>
    by_cases hj : t = JsVal.jsStr "join"
    · subst hj
      have : handleMessageA isOpen rooms ws (.msg (.jsStr "join") roomF data) =
          joinA isOpen rooms ws (codeOfA roomF) := by
        rw [handleMessageA]
        rw [if_neg (by simp [jsTruthy]), if_pos rfl]
      rw [this]
      exact invariantA_joinA h
    · rw [handleA_fst_eq_of_not_join hj]
      exact h

/-- Every reachable variant-A registry satisfies the invariant. -/
theorem reachableA_invariant {st : Registry} (h : ReachableA st) : InvariantA st := by
  induction h with
  | init => exact ⟨List.nodup_nil, by simp⟩
  | step isOpen st ws f _ ih => exact invariantA_step ih
  | close isOpen st ws _ ih => exact invariantA_leave ws ih

/-! ### Invariant preservation, variant B -/

theorem curGet_curSet_self (l : List (Conn × String)) (ws : Conn) (code : String) :
    curGet (curSet l ws code) ws = some code := by
  induction l with
  | nil => simp [curSet, curGet]
  | cons p rest ih =>
    obtain ⟨a, w⟩ := p
    by_cases h : a = ws
    · subst h
      simp [curSet, curGet]
    · rw [curSet, if_neg h, curGet, if_neg h]
      exact ih

theorem curGet_curSet_ne (l : List (Conn × String)) {a ws : Conn} (code : String)
    (h : a ≠ ws) : curGet (curSet l ws code) a = curGet l a := by
  induction l with
  | nil => simp [curSet, curGet, Ne.symm h]
  | cons p rest ih =>
    obtain ⟨b, w⟩ := p
    by_cases hb : b = ws
    · subst hb
      rw [curSet, if_pos rfl, curGet, if_neg (Ne.symm h), curGet, if_neg (Ne.symm h)]
    · rw [curSet, if_neg hb]
      by_cases hba : b = a
      · subst hba
        rw [curGet, if_pos rfl, curGet, if_pos rfl]
      · rw [curGet, if_neg hba, curGet, if_neg hba]
        exact ih

theorem sides_len_le_clients_len {r : Room} (hc : RoomCore r) :
    r.sides.length ≤ r.clients.length := by
  have hsub : r.sides.map Prod.fst ⊆ r.clients := fun a ha => (hc.domEq a).mpr ha
  have := (List.subperm_of_subset hc.ndKeys hsub).length_le
  simpa using this

theorem roomCore_of_lookup {rooms : Registry} {s : String}
    (h : InvariantA rooms) : RoomCore ((regLookup rooms s).getD emptyRoom) := by
  cases hl : regLookup rooms s with
  | none => exact emptyRoom_core
  | some r₀ => exact (h.2 (s, r₀) (regLookup_mem hl)).core

theorem lookup_isSome_of_two_clients {rooms : Registry} {s : String}
    (hfull : 2 ≤ ((regLookup rooms s).getD emptyRoom).clients.length) :
    (regLookup rooms s).isSome = true := by
  cases hl : regLookup rooms s with
  | none => rw [hl] at hfull; simp [emptyRoom] at hfull
  | some r₀ => rfl

/-- The `join` branch of server.js preserves the invariant. -/
theorem invariantB_joinB {isOpen : Conn → Bool} {st : StateB} {alive : List Conn}
    {ws : Conn} {s : String} (h : InvariantB st alive) :
    InvariantB (joinB isOpen st ws s).1 alive := by
  rw [joinB]
  by_cases hs : s = ""
  · rw [if_pos hs]
    exact h
  · rw [if_neg hs]
    by_cases hfull : 2 ≤ (getRoomObj st.rooms s).clients.length
    · simp only [hfull, if_pos]
      have hsome : (regLookup st.rooms s).isSome = true := by
        apply lookup_isSome_of_two_clients
        rw [← getRoomObj_eq]
        exact hfull
      rw [getRoomAdd_of_isSome hsome]
      exact h
    · simp only [hfull, if_neg, if_false]
      rw [getRoomObj_eq] at hfull ⊢
      have hcore : RoomCore ((regLookup st.rooms s).getD emptyRoom) :=
        roomCore_of_lookup h.1
      have hlen : ((regLookup st.rooms s).getD emptyRoom).clients.length ≤ 1 := by
        omega
      have hslen : ((regLookup st.rooms s).getD emptyRoom).sides.length ≤ 1 :=
        le_trans (sides_len_le_clients_len hcore) hlen
      obtain ⟨sd, hsd⟩ := Option.isSome_iff_exists.mp (chooseSide_isSome_of_len hslen)
      have hside : assignSide ⟨setAdd ((regLookup st.rooms s).getD emptyRoom).clients ws,
          ((regLookup st.rooms s).getD emptyRoom).sides⟩ ws = some sd := by
        rw [assignSide_eq_chooseSide]
        exact hsd
      rw [hside]
      have hOk : RoomOk ⟨setAdd ((regLookup st.rooms s).getD emptyRoom).clients ws,
          mapSet ((regLookup st.rooms s).getD emptyRoom).sides ws (some sd)⟩ :=
        roomOk_after_join hcore hsd
      have hlook : regLookup (updateRoom (getRoomAdd st.rooms s) s
          ⟨setAdd ((regLookup st.rooms s).getD emptyRoom).clients ws,
            mapSet ((regLookup st.rooms s).getD emptyRoom).sides ws (some sd)⟩) s =
          some ⟨setAdd ((regLookup st.rooms s).getD emptyRoom).clients ws,
            mapSet ((regLookup st.rooms s).getD emptyRoom).sides ws (some sd)⟩ := by
        apply regLookup_updateRoom_self
        rw [regLookup_getRoomAdd_self]
        rfl
      constructor
      · exact invariantA_update (invExceptA_getRoomAdd h.1) hOk
      · intro p hap c hc
        by_cases hp : p = ws
        · subst hp
          rw [curGet_curSet_self] at hc
          cases hc
          exact ⟨_, hlook, mem_setAdd.mpr (Or.inr rfl)⟩
        · rw [curGet_curSet_ne _ _ hp] at hc
          obtain ⟨r₀, hr₀, hmem₀⟩ := h.2 p hap c hc
          by_cases hcs : c = s
          · subst hcs
            refine ⟨_, hlook, mem_setAdd.mpr (Or.inl ?_)⟩
            rw [hr₀]
            exact hmem₀
          · refine ⟨r₀, ?_, hmem₀⟩
            rw [regLookup_updateRoom_ne _ _ hcs, regLookup_getRoomAdd_ne _ hcs]
            exact hr₀

theorem relayB_fst (isOpen : Conn → Bool) (st : StateB) (ws : Conn) (t : JsVal)
    (s : String) (data : Nat) :
    (relayB isOpen st ws t s data).1 = { st with rooms := getRoomAdd st.rooms s } := by
  rw [relayB]
  by_cases hmv : t = JsVal.jsStr "move"
  · rw [if_pos hmv]
    cases otherClient (getRoomObj st.rooms s) ws with
    | none => rfl
    | some p => by_cases hp : isOpen p <;> simp [hp]
  · rw [if_neg hmv]
    by_cases hrs : t = JsVal.jsStr "reset"
    · rw [if_pos hrs]
      cases otherClient (getRoomObj st.rooms s) ws with
      | none => rfl
      | some p => by_cases hp : isOpen p <;> simp [hp]
    · rw [if_neg hrs]

/-- Any variant-B message step preserves the invariant (for live senders). -/
theorem invariantB_step {isOpen : Conn → Bool} {st : StateB} {alive : List Conn}
    {ws : Conn} {f : Frame} (hws : ws ∈ alive) (h : InvariantB st alive) :
    InvariantB (handleMessageB isOpen st ws f).1 alive := by
  match f with
  | .invalid => exact h
  | .msg t roomF data =>
    by_cases hj : t = JsVal.jsStr "join"
    · subst hj
      cases roomF with
      | jsStr s => exact invariantB_joinB h
      | undef => exact h
      | jsNull => exact h
      | jsBool b => exact h
      | jsNum n => exact h
    · cases roomF with
      | undef =>
        have he : handleMessageB isOpen st ws (.msg t .undef data) =
            (st, [(ws, .errMsg "not_joined")]) := by
          rw [handleMessageB, if_neg hj]
          exact fun s hc => JsVal.noConfusion hc
        rw [he]
        exact h
      | jsNull =>
        have he : handleMessageB isOpen st ws (.msg t .jsNull data) =
            (st, [(ws, .errMsg "not_joined")]) := by
          rw [handleMessageB, if_neg hj]
          exact fun s hc => JsVal.noConfusion hc
        rw [he]
        exact h
      | jsBool b =>
        have he : handleMessageB isOpen st ws (.msg t (.jsBool b) data) =
            (st, [(ws, .errMsg "not_joined")]) := by
          rw [handleMessageB, if_neg hj]
          exact fun s hc => JsVal.noConfusion hc
        rw [he]
        exact h
      | jsNum n =>
        have he : handleMessageB isOpen st ws (.msg t (.jsNum n) data) =
            (st, [(ws, .errMsg "not_joined")]) := by
          rw [handleMessageB, if_neg hj]
          exact fun s hc => JsVal.noConfusion hc
        rw [he]
        exact h
      | jsStr s =>
        have he : handleMessageB isOpen st ws (.msg t (.jsStr s) data) =
            (if s = "" then (st, [(ws, OutMsg.errMsg "not_joined")])
             else if curGet st.cur ws ≠ some s then
               (st, [(ws, OutMsg.errMsg "not_joined")])
             else relayB isOpen st ws t s data) := by
          rw [handleMessageB, if_neg hj]
        rw [he]
        by_cases hs : s = ""
        · rw [if_pos hs]
          exact h
        · rw [if_neg hs]
          by_cases hcur : curGet st.cur ws ≠ some s
          · rw [if_pos hcur]
            exact h
          · rw [if_neg hcur]
            rw [not_not] at hcur
            obtain ⟨r₀, hr₀, _⟩ := h.2 ws hws s hcur
            have hsome : (regLookup st.rooms s).isSome = true := by
              rw [hr₀]; rfl
            rw [relayB_fst, getRoomAdd_of_isSome hsome]
            exact h

/-- The close handler of server.js preserves the invariant. -/
theorem invariantB_close {isOpen : Conn → Bool} {st : StateB} {alive : List Conn}
    {ws : Conn} (hws : ws ∈ alive) (h : InvariantB st alive) :
    InvariantB (closeB isOpen st ws).1 (alive.filter (fun x => x != ws)) := by
  cases hcur : curGet st.cur ws with
  | none =>
    have he : (closeB isOpen st ws).1 = st := by rw [closeB, hcur]
    rw [he]
    refine ⟨h.1, fun p hp c hc => h.2 p (List.mem_filter.mp hp).1 c hc⟩
  | some code =>
    have he : (closeB isOpen st ws).1 = StateB.mk
        (if (roomErase (getRoomObj st.rooms code) ws).clients = [] then
          removeRoom (updateRoom (getRoomAdd st.rooms code) code
            (roomErase (getRoomObj st.rooms code) ws)) code
        else
          updateRoom (getRoomAdd st.rooms code) code
            (roomErase (getRoomObj st.rooms code) ws))
        st.cur := by
      rw [closeB, hcur]
    rw [he]
    obtain ⟨r₀, hr₀, hmem₀⟩ := h.2 ws hws code hcur
    have hsome : (regLookup st.rooms code).isSome = true := by rw [hr₀]; rfl
    rw [getRoomAdd_of_isSome hsome, getRoomObj_eq, hr₀]
    simp only [Option.getD_some]
    have hcore' : RoomCore (roomErase r₀ ws) :=
      roomErase_core ws ((h.1.2 (code, r₀) (regLookup_mem hr₀)).core)
    constructor
    · show InvariantA (if (roomErase r₀ ws).clients = [] then _ else _)
      by_cases he : (roomErase r₀ ws).clients = []
      · rw [if_pos he]
        constructor
        · show (List.map Prod.fst _).Nodup
          exact (keys_removeRoom_sublist _ _).nodup
            (by rw [keys_updateRoom]; exact h.1.1)
        · intro p hp
          have h1 := mem_removeRoom hp
          rcases mem_updateRoom h1.1 with rfl | ⟨hp', _⟩
          · exact absurd rfl h1.2
          · exact h.1.2 p hp'
      · rw [if_neg he]
        exact invariantA_update (invExceptA_of_invariantA code h.1) ⟨hcore', he⟩
    · intro p hap c hc
      have hpa := List.mem_filter.mp hap
      have hpne : p ≠ ws := by simpa [bne_iff_ne] using hpa.2
      obtain ⟨r₁, hr₁, hmem₁⟩ := h.2 p hpa.1 c hc
      show ∃ r, regLookup (if (roomErase r₀ ws).clients = [] then _ else _) c =
        some r ∧ p ∈ r.clients
      by_cases hcc : c = code
      · subst hcc
        have hr01 : r₁ = r₀ := by
          rw [hr₀] at hr₁
          exact (Option.some_injective _ hr₁).symm
        subst hr01
        have hpmem : p ∈ (roomErase r₁ ws).clients :=
          mem_roomErase_clients.mpr ⟨hmem₁, hpne⟩
        have hne : (roomErase r₁ ws).clients ≠ [] := List.ne_nil_of_mem hpmem
        rw [if_neg hne]
        refine ⟨roomErase r₁ ws, ?_, hpmem⟩
        apply regLookup_updateRoom_self
        rw [hr₁]
        rfl
      · by_cases he : (roomErase r₀ ws).clients = []
        · rw [if_pos he]
          refine ⟨r₁, ?_, hmem₁⟩
          rw [regLookup_removeRoom_ne _ hcc, regLookup_updateRoom_ne _ _ hcc]
          exact hr₁
        · rw [if_neg he]
          refine ⟨r₁, ?_, hmem₁⟩
          rw [regLookup_updateRoom_ne _ _ hcc]
          exact hr₁

/-- Every reachable variant-B state satisfies the invariant. -/
theorem reachableB_invariant {st : StateB} {alive : List Conn}
    (h : ReachableB st alive) : InvariantB st alive := by
  induction h with
  | init =>
    refine ⟨⟨List.nodup_nil, by simp⟩, ?_⟩
    intro ws hws
    simp at hws
  | connect st alive ws hna hcur _ ih =>
    refine ⟨ih.1, fun p hp c hc => ?_⟩
    rcases List.mem_cons.mp hp with rfl | hp'
    · rw [hcur] at hc
      exact Option.noConfusion hc
    · exact ih.2 p hp' c hc
  | step isOpen st alive ws f hws _ ih => exact invariantB_step hws ih
  | close isOpen st alive ws hws _ ih => exact invariantB_close hws ih

/-! ### Dispatch helper lemmas -/

theorem handleA_join_eq (isOpen : Conn → Bool) (rooms : Registry) (ws : Conn)
    (roomF : JsVal) (data : Nat) :
    handleMessageA isOpen rooms ws (.msg (.jsStr "join") roomF data) =
      joinA isOpen rooms ws (codeOfA roomF) := by
  rw [handleMessageA]
  rw [if_neg (by decide : ¬(jsTruthy (JsVal.jsStr "join") = false)), if_pos rfl]

theorem handleA_move_eq (isOpen : Conn → Bool) (rooms : Registry) (ws : Conn)
    (roomF : JsVal) (data : Nat) :
    handleMessageA isOpen rooms ws (.msg (.jsStr "move") roomF data) =
      moveA isOpen rooms ws (codeOfA roomF) data := by
  rw [handleMessageA]
  rw [if_neg (by decide : ¬(jsTruthy (JsVal.jsStr "move") = false)),
    if_neg (by decide : ¬(JsVal.jsStr "move" = JsVal.jsStr "join")), if_pos rfl]

theorem handleA_reset_eq (isOpen : Conn → Bool) (rooms : Registry) (ws : Conn)
    (roomF : JsVal) (data : Nat) :
    handleMessageA isOpen rooms ws (.msg (.jsStr "reset") roomF data) =
      resetA isOpen rooms ws (codeOfA roomF) := by
  rw [handleMessageA]
  rw [if_neg (by decide : ¬(jsTruthy (JsVal.jsStr "reset") = false)),
    if_neg (by decide : ¬(JsVal.jsStr "reset" = JsVal.jsStr "join")),
    if_neg (by decide : ¬(JsVal.jsStr "reset" = JsVal.jsStr "move")), if_pos rfl]

theorem codeOfA_str {code : String} (h : code ≠ "") :
    codeOfA (.jsStr code) = jsTrim code := by
  rw [codeOfA]
  have : jsTruthy (JsVal.jsStr code) = true := by
    simp [jsTruthy, bne_iff_ne, h]
  rw [this]
  rfl

theorem handleB_nonjoin_str_eq (isOpen : Conn → Bool) (st : StateB) (ws : Conn)
    {t : JsVal} (s : String) (data : Nat) (hj : t ≠ .jsStr "join") :
    handleMessageB isOpen st ws (.msg t (.jsStr s) data) =
      (if s = "" then (st, [(ws, OutMsg.errMsg "not_joined")])
       else if curGet st.cur ws ≠ some s then (st, [(ws, OutMsg.errMsg "not_joined")])
       else relayB isOpen st ws t s data) := by
  rw [handleMessageB, if_neg hj]

theorem handleB_join_str_eq (isOpen : Conn → Bool) (st : StateB) (ws : Conn)
    (s : String) (data : Nat) :
    handleMessageB isOpen st ws (.msg (.jsStr "join") (.jsStr s) data) =
      joinB isOpen st ws s := by
  rw [handleMessageB, if_pos rfl]

theorem otherClient_pair {r : Room} {ws p : Conn}
    (hlist : r.clients = [ws, p] ∨ r.clients = [p, ws]) (hne : p ≠ ws) :
    otherClient r ws = some p := by
  have hpw : (p != ws) = true := by simp [bne_iff_ne, hne]
  rcases hlist with h | h <;> simp [otherClient, h, List.find?, hpw]

theorem leaveA_out_peerLeft {isOpen : Conn → Bool} {rooms : Registry} {ws : Conn}
    {x : Send} (h : x ∈ (leaveEverywhereA isOpen rooms ws).2) :
    ∃ c, x.2 = .peerLeft (some c) := by
  induction rooms with
  | nil => simp [leaveEverywhereA] at h
  | cons q rest ih =>
    obtain ⟨c, r⟩ := q
    by_cases hm : ws ∈ r.clients
    · rw [leaveEverywhereA, if_pos hm] at h
      exact ⟨c, broadcast_snd (show x ∈ broadcast isOpen (roomErase r ws)
        (.peerLeft (some c)) none from h)⟩
    · rw [leaveEverywhereA, if_neg hm] at h
      exact ih h

theorem moveA_not_mem {isOpen : Conn → Bool} {rooms : Registry} {ws : Conn}
    {code : String} {data : Nat}
    (h : ∀ r, regLookup rooms code = some r → ws ∉ r.clients) :
    moveA isOpen rooms ws code data = (rooms, []) := by
  rw [moveA]
  cases hl : regLookup rooms code with
  | none => rfl
  | some r =>
    show (if ws ∈ r.clients then _ else _) = _
    rw [if_neg (h r hl)]

theorem resetA_not_mem {isOpen : Conn → Bool} {rooms : Registry} {ws : Conn}
    {code : String}
    (h : ∀ r, regLookup rooms code = some r → ws ∉ r.clients) :
    resetA isOpen rooms ws code = (rooms, []) := by
  rw [resetA]
  cases hl : regLookup rooms code with
  | none => rfl
  | some r =>
    show (if ws ∈ r.clients then _ else _) = _
    rw [if_neg (h r hl)]

theorem firstContaining_append_empty (rooms : Registry) (x : String) (ws : Conn) :
    firstContaining (rooms ++ [(x, emptyRoom)]) ws = firstContaining rooms ws := by
  induction rooms with
  | nil => simp [firstContaining, emptyRoom]
  | cons q rest ih =>
    obtain ⟨c, r⟩ := q
    by_cases hm : ws ∈ r.clients
    · rw [List.cons_append, firstContaining, if_pos hm, firstContaining, if_pos hm]
    · rw [List.cons_append, firstContaining, if_neg hm, firstContaining, if_neg hm]
      exact ih

theorem firstContaining_getRoomAdd (rooms : Registry) (d : String) (ws : Conn) :
    firstContaining (getRoomAdd rooms d) ws = firstContaining rooms ws := by
  unfold getRoomAdd
  cases hs : (regLookup rooms d).isSome with
  | true => simp
  | false =>
    simp only [Bool.false_eq_true, if_false]
    exact firstContaining_append_empty rooms d ws

theorem missing_not_in_leave {isOpen : Conn → Bool} {rooms : Registry} {ws : Conn} :
    (ws, OutMsg.errMsg "missing_room") ∉ (leaveEverywhereA isOpen rooms ws).2 := by
  intro h
  obtain ⟨c, hc⟩ := leaveA_out_peerLeft h
  exact OutMsg.noConfusion hc

/-- The output of a `join` with a non-empty code is the leave-phase sends,
then one message to the sender (either `room_full` or `joined`), then a
possible `peer_joined` broadcast. -/
theorem joinA_out_cases {isOpen : Conn → Bool} {rooms : Registry} {ws : Conn}
    {code : String} (hne : code ≠ "") :
    ∃ mid bc, (joinA isOpen rooms ws code).2 =
      (leaveEverywhereA isOpen (getRoomAdd rooms code) ws).2 ++ [(ws, mid)] ++ bc ∧
      (mid = .errMsg "room_full" ∧ bc = [] ∨
       ∃ sd rFin, mid = .joined code (some sd) ∧
         bc = broadcast isOpen rFin (.peerJoined (some sd)) (some ws)) := by
  rw [joinA, if_neg hne]
  cases hl : regLookup (leaveEverywhereA isOpen (getRoomAdd rooms code) ws).1 code with
  | none =>
    cases hcs : chooseSide (roomErase (getRoomObj rooms code) ws) with
    | none =>
      refine ⟨.errMsg "room_full", [], ?_, Or.inl ⟨rfl, rfl⟩⟩
      simp only [hl, hcs, List.append_nil]
    | some sd =>
      refine ⟨.joined code (some sd),
        broadcast isOpen ⟨setAdd (roomErase (getRoomObj rooms code) ws).clients ws,
          mapSet (roomErase (getRoomObj rooms code) ws).sides ws (some sd)⟩
          (.peerJoined (some sd)) (some ws), ?_,
        Or.inr ⟨sd, _, rfl, rfl⟩⟩
      simp only [hl, hcs]
  | some rCur =>
    cases hcs : chooseSide rCur with
    | none =>
      refine ⟨.errMsg "room_full", [], ?_, Or.inl ⟨rfl, rfl⟩⟩
      simp only [hl, hcs, List.append_nil]
    | some sd =>
      refine ⟨.joined code (some sd),
        broadcast isOpen ⟨setAdd rCur.clients ws, mapSet rCur.sides ws (some sd)⟩
          (.peerJoined (some sd)) (some ws), ?_,
        Or.inr ⟨sd, _, rfl, rfl⟩⟩
      simp only [hl, hcs]

/-! ### Claim theorems -/

/-- C1: for every reachable state of the room registry, under every operation
the coordinator performs (join, move, reset, close/leave handling), each room
present in the registry has at most 2 members, a role assignment whose domain
is exactly the member set with no two members sharing a role, and no room with
an empty member set remains registered after the operation — in both source
variants. -/
theorem claim1_registry_invariants :
    (∀ st : Registry, ReachableA st → InvariantA st) ∧
    (∀ (st : StateB) (alive : List Conn), ReachableB st alive → InvariantB st alive) :=
  ⟨fun _ h => reachableA_invariant h, fun _ _ h => reachableB_invariant h⟩

/-- Witness for C1 at a concrete reachable state (after one join in each
variant). -/
theorem claim1_registry_invariants_witness :
    InvariantA ((handleMessageA (fun _ => true) [] 1
      (.msg (.jsStr "join") (.jsStr "abc") 0)).1) ∧
    InvariantB ((handleMessageB (fun _ => true) ⟨[], []⟩ 1
      (.msg (.jsStr "join") (.jsStr "abc") 0)).1) [1] :=
  ⟨claim1_registry_invariants.1 _
    (ReachableA.step (fun _ => true) [] 1 _ ReachableA.init),
   claim1_registry_invariants.2 _ _
    (ReachableB.step (fun _ => true) ⟨[], []⟩ [1] 1 _ (by decide)
      (ReachableB.connect ⟨[], []⟩ [] 1 (by decide) rfl ReachableB.init))⟩

/-- C3 (code-level evaluation at the failing input): in part_000, a connection
that is the sole member of room "abc" and sends `join("abc")` again receives
`joined("abc", FIRST)`, yet the registry afterwards no longer contains room
"abc" at all — `getRoom` captured the room object, `leaveEverywhere` then
evicted it, and the join mutated the orphaned object. The claim's required
postcondition (sender is a member of the registry's room for that code) is
violated. -/
theorem claim3_join_orphan_eval :
    handleMessageA (fun _ => true) [("abc", ⟨[1], [(1, some Side.X)]⟩)] 1
      (.msg (.jsStr "join") (.jsStr "abc") 0) =
      ([], [(1, .joined "abc" (some Side.X))]) := by decide

/-- C9 (code-level evaluation at the failing input): part_000's heartbeat tick
uses `return ws.terminate()` inside `for…of`, exiting the whole callback at
the first dead connection: with tracked connections [(1, dead), (2, alive)],
connection 2 is neither flagged nor pinged; with [(1, dead), (2, dead)],
connection 2 is not terminated. server.js's `forEach` version processes every
connection as the claim states. -/
theorem claim9_sweep_tick_eval :
    sweepTickA [(1, false), (2, true)] = ([(2, true)], [1], []) ∧
    sweepTickA [(1, false), (2, false)] = ([(2, false)], [1], []) ∧
    sweepTickB [(1, false), (2, true)] = ([(2, false)], [1], [2]) ∧
    sweepTickB [(1, false), (2, false)] = ([], [1, 2], []) := by
  exact ⟨rfl, rfl, rfl, rfl⟩

/-- C5 counterexample: in server.js, a room with members 1 and 2; running the
close handler for connection 1 twice sends `peer_left` to connection 2 BOTH
times — `ws.currentRoom` is never cleared, so the second run looks the room up
again and re-notifies. The claim's "the second invocation sends no further
notification" is false on this input. -/
theorem claim5_counterexample :
    (closeB (fun _ => true)
      ⟨[("abc", ⟨[1, 2], [(1, some Side.X), (2, some Side.O)]⟩)],
       [(1, "abc"), (2, "abc")]⟩ 1).2 = [(2, .peerLeft none)] ∧
    (closeB (fun _ => true)
      ((closeB (fun _ => true)
        ⟨[("abc", ⟨[1, 2], [(1, some Side.X), (2, some Side.O)]⟩)],
         [(1, "abc"), (2, "abc")]⟩ 1).1) 1).2 = [(2, .peerLeft none)] := by decide

/-- C5 (amended): in part_000, whose close/error handling is
`leaveEverywhere`, the path IS idempotent: for a connection occupying at most
one room (with the JS-Map guarantee of unique keys), running it a second time
sends nothing and leaves the registry unchanged; server.js's close handler
instead re-sends `peer_left` because `currentRoom` is not cleared. -/
theorem claim5_close_idempotent {isOpen : Conn → Bool} {rooms : Registry} {ws : Conn}
    (hnd : keysNodup rooms)
    (hone : ∀ p ∈ rooms, ∀ q ∈ rooms, ws ∈ p.2.clients → ws ∈ q.2.clients → p = q) :
    closeA isOpen (closeA isOpen rooms ws).1 ws = ((closeA isOpen rooms ws).1, []) := by
  rw [closeA, closeA]
  cases hf : firstContaining rooms ws with
  | none =>
    rw [leaveA_of_none hf]
    exact leaveA_of_none hf
  | some q =>
    obtain ⟨c, R⟩ := q
    have hcR := firstContaining_mem hf
    have h1 : (leaveEverywhereA isOpen rooms ws).1 =
        (if (roomErase R ws).clients = [] then removeRoom rooms c
         else updateRoom rooms c (roomErase R ws)) := by
      rw [leaveA_spec hnd hf]
    rw [h1]
    apply leaveA_of_none
    rw [firstContaining_eq_none_iff]
    intro p hp
    by_cases he : (roomErase R ws).clients = []
    · rw [if_pos he] at hp
      intro hw
      have hmr := mem_removeRoom hp
      have hpq := hone p hmr.1 (c, R) hcR.1 hw hcR.2
      exact hmr.2 (by rw [hpq])
    · rw [if_neg he] at hp
      intro hw
      rcases mem_updateRoom hp with rfl | ⟨hmem, hne⟩
      · exact roomErase_not_mem R ws hw
      · have hpq := hone p hmem (c, R) hcR.1 hw hcR.2
        exact hne (by rw [hpq])

/-- Witness for C5's amended theorem on a concrete two-member room. -/
theorem claim5_close_idempotent_witness :
    closeA (fun _ => true)
      ((closeA (fun _ => true)
        [("abc", ⟨[1, 2], [(1, some Side.X), (2, some Side.O)]⟩)] 1).1) 1 =
      ((closeA (fun _ => true)
        [("abc", ⟨[1, 2], [(1, some Side.X), (2, some Side.O)]⟩)] 1).1, []) :=
  claim5_close_idempotent (by decide) (by decide)

/-- C7 counterexample: in server.js a connection that is a member of no room
sends `move` for room "abc"; the claim requires silence, but the coordinator
replies `error(not_joined)` to the sender. -/
theorem claim7_counterexample :
    handleMessageB (fun _ => true) ⟨[], []⟩ 1
      (.msg (.jsStr "move") (.jsStr "abc") 0) =
      (⟨[], []⟩, [(1, .errMsg "not_joined")]) := by decide

/-- C7 (amended): part_000 behaves as the claim states: a `move` or `reset`
whose sender is not a member of the referenced room per the registry produces
no reply and no relay, and leaves the registry unchanged; server.js instead
replies `error(not_joined)` whenever the cached `currentRoom` does not match
(and decides membership by that cache, not the registry). -/
theorem claim7_nonmember_silent {isOpen : Conn → Bool} {rooms : Registry} {ws : Conn}
    {roomF : JsVal} {data : Nat}
    (h : ∀ r, regLookup rooms (codeOfA roomF) = some r → ws ∉ r.clients) :
    handleMessageA isOpen rooms ws (.msg (.jsStr "move") roomF data) = (rooms, []) ∧
    handleMessageA isOpen rooms ws (.msg (.jsStr "reset") roomF data) = (rooms, []) := by
  rw [handleA_move_eq, handleA_reset_eq]
  exact ⟨moveA_not_mem h, resetA_not_mem h⟩

/-- Witness for C7's amended theorem: a non-member sender on the empty
registry is ignored silently by part_000. -/
theorem claim7_nonmember_silent_witness :
    handleMessageA (fun _ => true) [] 1
      (.msg (.jsStr "move") (.jsStr "abc") 7) = ([], []) ∧
    handleMessageA (fun _ => true) [] 1
      (.msg (.jsStr "reset") (.jsStr "abc") 7) = ([], []) :=
  claim7_nonmember_silent (fun r hr => Option.noConfusion hr)

/-- C2 counterexample: in part_000, connection 3 occupies room "old" and joins
the full room "xyz". The reply is `error(room_full)`, but the registry is NOT
unchanged: `leaveEverywhere` already evicted connection 3 from room "old"
(deleting the now-empty room) before the full check ran. -/
theorem claim2_counterexample :
    handleMessageA (fun _ => true)
      [("old", ⟨[3], [(3, some Side.X)]⟩),
       ("xyz", ⟨[1, 2], [(1, some Side.X), (2, some Side.O)]⟩)] 3
      (.msg (.jsStr "join") (.jsStr "xyz") 0) =
      ([("xyz", ⟨[1, 2], [(1, some Side.X), (2, some Side.O)]⟩)],
       [(3, .errMsg "room_full")]) := by decide

/-- C2 (amended): a join to a room whose two roles are taken by other
connections is answered with `error(room_full)` and the target room itself is
unchanged. In server.js the entire state is unchanged, as the claim says; in
part_000 the reply is the same but the sender has already been removed from
any previous room (exactly as `leaveEverywhere` does), so only the remainder
of the registry is untouched. -/
theorem claim2_room_full {isOpen : Conn → Bool} {ws : Conn} {code : String}
    {r : Room} {data : Nat} :
    (∀ rooms : Registry, keysNodup rooms → jsTrim code = code → code ≠ "" →
      regLookup rooms code = some r →
      some Side.X ∈ r.sides.map Prod.snd → some Side.O ∈ r.sides.map Prod.snd →
      ws ∉ r.clients →
      handleMessageA isOpen rooms ws (.msg (.jsStr "join") (.jsStr code) data) =
        ((leaveEverywhereA isOpen rooms ws).1,
         (leaveEverywhereA isOpen rooms ws).2 ++ [(ws, .errMsg "room_full")]) ∧
      regLookup (leaveEverywhereA isOpen rooms ws).1 code = some r) ∧
    (∀ st : StateB, code ≠ "" → regLookup st.rooms code = some r →
      2 ≤ r.clients.length →
      handleMessageB isOpen st ws (.msg (.jsStr "join") (.jsStr code) data) =
        (st, [(ws, .errMsg "room_full")])) := by
  constructor
  · intro rooms hnd htrim hne hl hx ho hmem
    have hcd : codeOfA (.jsStr code) = code := by rw [codeOfA_str hne, htrim]
    have hsome : (regLookup rooms code).isSome = true := by rw [hl]; rfl
    have hga : getRoomAdd rooms code = rooms := getRoomAdd_of_isSome hsome
    have hlv : regLookup (leaveEverywhereA isOpen rooms ws).1 code = some r :=
      leaveA_regLookup_of_not_mem hl hmem
    have hcs : chooseSide r = none := (chooseSide_eq_none_iff r).mpr ⟨hx, ho⟩
    refine ⟨?_, hlv⟩
    rw [handleA_join_eq, hcd, joinA, if_neg hne]
    simp only [hga, hlv, hcs]
  · intro st hne hl hfull
    have hobj : getRoomObj st.rooms code = r := by
      rw [getRoomObj_eq, hl]
      rfl
    have hga : getRoomAdd st.rooms code = st.rooms :=
      getRoomAdd_of_isSome (by rw [hl]; rfl)
    rw [handleB_join_str_eq, joinB, if_neg hne]
    simp only [hobj, hga]
    rw [if_pos hfull]

/-- Witness for C2's amended theorem on concrete full rooms in both variants. -/
theorem claim2_room_full_witness :
    (handleMessageA (fun _ => true)
        [("old", ⟨[3], [(3, some Side.X)]⟩),
         ("xyz", ⟨[1, 2], [(1, some Side.X), (2, some Side.O)]⟩)] 3
        (.msg (.jsStr "join") (.jsStr "xyz") 0) =
        ((leaveEverywhereA (fun _ => true)
          [("old", ⟨[3], [(3, some Side.X)]⟩),
           ("xyz", ⟨[1, 2], [(1, some Side.X), (2, some Side.O)]⟩)] 3).1,
         (leaveEverywhereA (fun _ => true)
          [("old", ⟨[3], [(3, some Side.X)]⟩),
           ("xyz", ⟨[1, 2], [(1, some Side.X), (2, some Side.O)]⟩)] 3).2 ++
           [(3, .errMsg "room_full")]) ∧
      regLookup (leaveEverywhereA (fun _ => true)
        [("old", ⟨[3], [(3, some Side.X)]⟩),
         ("xyz", ⟨[1, 2], [(1, some Side.X), (2, some Side.O)]⟩)] 3).1 "xyz" =
        some ⟨[1, 2], [(1, some Side.X), (2, some Side.O)]⟩) ∧
    handleMessageB (fun _ => true)
      ⟨[("xyz", ⟨[1, 2], [(1, some Side.X), (2, some Side.O)]⟩)], []⟩ 3
      (.msg (.jsStr "join") (.jsStr "xyz") 0) =
      (⟨[("xyz", ⟨[1, 2], [(1, some Side.X), (2, some Side.O)]⟩)], []⟩,
       [(3, .errMsg "room_full")]) :=
  have h := @claim2_room_full (fun _ => true) 3 "xyz"
    ⟨[1, 2], [(1, some Side.X), (2, some Side.O)]⟩ 0
  ⟨h.1 _ (by decide) (by decide) (by decide) (by decide)
    (by decide) (by decide) (by decide),
   h.2 _ (by decide) (by decide) (by decide)⟩

/-- C4 counterexample: in server.js, connection 1 — a member of room "abc"
together with connection 2 — sends `join("xyz")`. The claim requires the join
to first leave "abc" (connection 2 receiving `peer_left`, 1 evicted); instead
server.js registers 1 into "xyz" while LEAVING it in "abc" as well, and sends
nothing to connection 2. -/
theorem claim4_counterexample :
    handleMessageB (fun _ => true)
      ⟨[("abc", ⟨[1, 2], [(1, some Side.X), (2, some Side.O)]⟩)],
       [(1, "abc"), (2, "abc")]⟩ 1
      (.msg (.jsStr "join") (.jsStr "xyz") 0) =
      (⟨[("abc", ⟨[1, 2], [(1, some Side.X), (2, some Side.O)]⟩),
         ("xyz", ⟨[1], [(1, some Side.X)]⟩)],
        [(1, "xyz"), (2, "abc")]⟩,
       [(1, .joined "xyz" (some Side.X))]) := by decide

/-- C4 (amended): in part_000 the claim holds whenever the target room still
has a free role: a join for a different room `d` by a connection occupying
room `c` first removes the connection from `c` exactly as a close would (the
close path's own sends are the very same `peer_left` broadcast, and `c` is
evicted when emptied), and then registers the connection in `d` with the
freshly computed role. server.js performs no implicit leave at all. -/
theorem claim4_join_leaves_previous {isOpen : Conn → Bool} {rooms : Registry}
    {ws : Conn} {c d : String} {R : Room} {side : Side} {data : Nat}
    (hnd : keysNodup rooms)
    (hf : firstContaining rooms ws = some (c, R))
    (hdc : d ≠ c) (hdt : jsTrim d = d) (hdne : d ≠ "")
    (hcs : chooseSide ((regLookup rooms d).getD emptyRoom) = some side) :
    handleMessageA isOpen rooms ws (.msg (.jsStr "join") (.jsStr d) data) =
      (updateRoom
        (if (roomErase R ws).clients = [] then removeRoom (getRoomAdd rooms d) c
         else updateRoom (getRoomAdd rooms d) c (roomErase R ws)) d
        ⟨setAdd ((regLookup rooms d).getD emptyRoom).clients ws,
         mapSet ((regLookup rooms d).getD emptyRoom).sides ws (some side)⟩,
       broadcast isOpen (roomErase R ws) (.peerLeft (some c)) none ++
         [(ws, .joined d (some side))] ++
         broadcast isOpen
           ⟨setAdd ((regLookup rooms d).getD emptyRoom).clients ws,
            mapSet ((regLookup rooms d).getD emptyRoom).sides ws (some side)⟩
           (.peerJoined (some side)) (some ws)) ∧
    (closeA isOpen rooms ws).2 =
      broadcast isOpen (roomErase R ws) (.peerLeft (some c)) none := by
  have hcd : codeOfA (.jsStr d) = d := by rw [codeOfA_str hdne, hdt]
  have hnd1 : keysNodup (getRoomAdd rooms d) := keysNodup_getRoomAdd d hnd
  have hf1 : firstContaining (getRoomAdd rooms d) ws = some (c, R) := by
    rw [firstContaining_getRoomAdd]
    exact hf
  have hspec := @leaveA_spec isOpen (getRoomAdd rooms d) ws c R hnd1 hf1
  have hlv1 : (leaveEverywhereA isOpen (getRoomAdd rooms d) ws).1 =
      (if (roomErase R ws).clients = [] then removeRoom (getRoomAdd rooms d) c
       else updateRoom (getRoomAdd rooms d) c (roomErase R ws)) := by
    rw [hspec]
  have hlv2 : (leaveEverywhereA isOpen (getRoomAdd rooms d) ws).2 =
      broadcast isOpen (roomErase R ws) (.peerLeft (some c)) none := by
    rw [hspec]
  have hlvl : regLookup (leaveEverywhereA isOpen (getRoomAdd rooms d) ws).1 d =
      some ((regLookup rooms d).getD emptyRoom) := by
    rw [hlv1]
    by_cases he : (roomErase R ws).clients = []
    · rw [if_pos he, regLookup_removeRoom_ne _ hdc, regLookup_getRoomAdd_self]
    · rw [if_neg he, regLookup_updateRoom_ne _ _ hdc, regLookup_getRoomAdd_self]
  have hlvl2 : regLookup
      (if (roomErase R ws).clients = [] then removeRoom (getRoomAdd rooms d) c
       else updateRoom (getRoomAdd rooms d) c (roomErase R ws)) d =
      some ((regLookup rooms d).getD emptyRoom) := by
    rw [← hlv1]
    exact hlvl
  constructor
  · rw [handleA_join_eq, hcd, joinA, if_neg hdne]
    simp only [hlv1, hlv2, hlvl2, hcs]
  · rw [closeA, leaveA_spec hnd hf]

/-- Witness for C4's amended theorem: connection 1 leaves room "abc" (peer 2
notified) and is registered into the fresh room "xyz" as FIRST. -/
theorem claim4_join_leaves_previous_witness :
    (handleMessageA (fun _ => true)
      [("abc", ⟨[1, 2], [(1, some Side.X), (2, some Side.O)]⟩)] 1
      (.msg (.jsStr "join") (.jsStr "xyz") 0) =
      (updateRoom
        (if (roomErase ⟨[1, 2], [(1, some Side.X), (2, some Side.O)]⟩ 1).clients = []
         then removeRoom (getRoomAdd
           [("abc", ⟨[1, 2], [(1, some Side.X), (2, some Side.O)]⟩)] "xyz") "abc"
         else updateRoom (getRoomAdd
           [("abc", ⟨[1, 2], [(1, some Side.X), (2, some Side.O)]⟩)] "xyz") "abc"
           (roomErase ⟨[1, 2], [(1, some Side.X), (2, some Side.O)]⟩ 1)) "xyz"
        ⟨setAdd ((regLookup
            [("abc", ⟨[1, 2], [(1, some Side.X), (2, some Side.O)]⟩)]
            "xyz").getD emptyRoom).clients 1,
         mapSet ((regLookup
            [("abc", ⟨[1, 2], [(1, some Side.X), (2, some Side.O)]⟩)]
            "xyz").getD emptyRoom).sides 1 (some Side.X)⟩,
       broadcast (fun _ => true)
         (roomErase ⟨[1, 2], [(1, some Side.X), (2, some Side.O)]⟩ 1)
         (.peerLeft (some "abc")) none ++
         [(1, .joined "xyz" (some Side.X))] ++
         broadcast (fun _ => true)
           ⟨setAdd ((regLookup
              [("abc", ⟨[1, 2], [(1, some Side.X), (2, some Side.O)]⟩)]
              "xyz").getD emptyRoom).clients 1,
            mapSet ((regLookup
              [("abc", ⟨[1, 2], [(1, some Side.X), (2, some Side.O)]⟩)]
              "xyz").getD emptyRoom).sides 1 (some Side.X)⟩
           (.peerJoined (some Side.X)) (some 1))) ∧
    (closeA (fun _ => true)
      [("abc", ⟨[1, 2], [(1, some Side.X), (2, some Side.O)]⟩)] 1).2 =
      broadcast (fun _ => true)
        (roomErase ⟨[1, 2], [(1, some Side.X), (2, some Side.O)]⟩ 1)
        (.peerLeft (some "abc")) none :=
  claim4_join_leaves_previous (by decide) (by decide) (by decide) (by decide)
    (by decide) (by decide)

/-- C6 counterexample: a reachable server.js state (built by the step function
itself: 1 joins "abc", 2 joins "abc", 1 joins "xyz" — server.js does not leave
"abc", so room "abc" still has both members with 1 as FIRST). When connection
1 then sends `move` for room "abc", the claim requires delivery to the SECOND
member only; instead the sender gets `error(not_joined)` (its cached
`currentRoom` is "xyz") and the SECOND member receives nothing. -/
theorem claim6_counterexample :
    ((handleMessageB (fun _ => true)
      ((handleMessageB (fun _ => true)
        ((handleMessageB (fun _ => true) ⟨[], []⟩ 1
          (.msg (.jsStr "join") (.jsStr "abc") 0)).1) 2
        (.msg (.jsStr "join") (.jsStr "abc") 0)).1) 1
      (.msg (.jsStr "join") (.jsStr "xyz") 0)).1 =
      ⟨[("abc", ⟨[1, 2], [(1, some Side.X), (2, some Side.O)]⟩),
        ("xyz", ⟨[1], [(1, some Side.X)]⟩)],
       [(1, "xyz"), (2, "abc")]⟩) ∧
    handleMessageB (fun _ => true)
      ⟨[("abc", ⟨[1, 2], [(1, some Side.X), (2, some Side.O)]⟩),
        ("xyz", ⟨[1], [(1, some Side.X)]⟩)],
       [(1, "xyz"), (2, "abc")]⟩ 1
      (.msg (.jsStr "move") (.jsStr "abc") 7) =
      (⟨[("abc", ⟨[1, 2], [(1, some Side.X), (2, some Side.O)]⟩),
         ("xyz", ⟨[1], [(1, some Side.X)]⟩)],
        [(1, "xyz"), (2, "abc")]⟩,
       [(1, .errMsg "not_joined")]) := by decide

/-- C6 (amended): the move round-trip holds in part_000 unconditionally for a
registered two-member room, and in server.js under the additional condition
that the sender's cached `currentRoom` equals the room's code: the FIRST
member's `move(data)` is delivered exactly to the open SECOND member as
`move(from = FIRST, data)` and the registry is untouched. -/
theorem claim6_move_roundtrip {isOpen : Conn → Bool} {ws p : Conn} {code : String}
    {r : Room} {data : Nat} :
    (∀ rooms : Registry, jsTrim code = code → code ≠ "" →
      regLookup rooms code = some r →
      r.clients = [ws, p] ∨ r.clients = [p, ws] → p ≠ ws → isOpen p = true →
      mapGet r.sides ws = some (some Side.X) →
      handleMessageA isOpen rooms ws (.msg (.jsStr "move") (.jsStr code) data) =
        (rooms, [(p, .moveMsg (some (some Side.X)) data)])) ∧
    (∀ st : StateB, code ≠ "" →
      regLookup st.rooms code = some r → curGet st.cur ws = some code →
      r.clients = [ws, p] ∨ r.clients = [p, ws] → p ≠ ws → isOpen p = true →
      mapGet r.sides ws = some (some Side.X) →
      handleMessageB isOpen st ws (.msg (.jsStr "move") (.jsStr code) data) =
        (st, [(p, .moveMsg (some (some Side.X)) data)])) := by
  constructor
  · intro rooms htrim hne hl hpair hpw hopen hside
    have hcd : codeOfA (.jsStr code) = code := by rw [codeOfA_str hne, htrim]
    have hmem : ws ∈ r.clients := by
      rcases hpair with h | h <;> simp [h]
    rw [handleA_move_eq, hcd, moveA]
    simp only [hl]
    rw [if_pos hmem, hside, broadcast_pair isOpen r _ p ws hpair hopen hpw]
  · intro st hne hl hcur hpair hpw hopen hside
    have hobj : getRoomObj st.rooms code = r := by
      rw [getRoomObj_eq, hl]
      rfl
    have hga : getRoomAdd st.rooms code = st.rooms :=
      getRoomAdd_of_isSome (by rw [hl]; rfl)
    have hoc : otherClient r ws = some p := otherClient_pair hpair hpw
    rw [handleB_nonjoin_str_eq isOpen st ws code data (by decide)]
    rw [if_neg hne, if_neg (fun hq => hq hcur)]
    rw [relayB, if_pos rfl]
    simp only [hobj, hga, hoc, hopen, sideFor, hside, if_true]

/-- Witness for C6's amended theorem on a concrete two-member room in both
variants. -/
theorem claim6_move_roundtrip_witness :
    (handleMessageA (fun _ => true)
      [("abc", ⟨[1, 2], [(1, some Side.X), (2, some Side.O)]⟩)] 1
      (.msg (.jsStr "move") (.jsStr "abc") 7) =
      ([("abc", ⟨[1, 2], [(1, some Side.X), (2, some Side.O)]⟩)],
       [(2, .moveMsg (some (some Side.X)) 7)])) ∧
    handleMessageB (fun _ => true)
      ⟨[("abc", ⟨[1, 2], [(1, some Side.X), (2, some Side.O)]⟩)],
       [(1, "abc"), (2, "abc")]⟩ 1
      (.msg (.jsStr "move") (.jsStr "abc") 7) =
      (⟨[("abc", ⟨[1, 2], [(1, some Side.X), (2, some Side.O)]⟩)],
        [(1, "abc"), (2, "abc")]⟩,
       [(2, .moveMsg (some (some Side.X)) 7)]) :=
  have h := @claim6_move_roundtrip (fun _ => true) 1 2 "abc"
    ⟨[1, 2], [(1, some Side.X), (2, some Side.O)]⟩ 7
  ⟨h.1 _ (by decide) (by decide) (by decide) (by decide) (by decide) (by decide)
    (by decide),
   h.2 _ (by decide) (by decide) (by decide) (by decide) (by decide) (by decide)
    (by decide)⟩

/-- C8 counterexample: in server.js a `join` whose room field is the
whitespace-only string "   " is NOT answered with `error(missing_room)` (the
source does not trim); the room "   " is created and joined, contradicting
both halves of the claim at this input. -/
theorem claim8_counterexample :
    handleMessageB (fun _ => true) ⟨[], []⟩ 1
      (.msg (.jsStr "join") (.jsStr "   ") 0) =
      (⟨[("   ", ⟨[1], [(1, some Side.X)]⟩)], [(1, "   ")]⟩,
       [(1, .joined "   " (some Side.X))]) := by decide

/-- C8 (amended): the two variants reply `error(missing_room)` under different
conditions, neither of which is the claim's "not a non-empty string after
trimming". part_000 replies iff `String(room || '').trim()` is empty — so a
non-string field is coerced (e.g. the number 5 joins room "5") — and
otherwise proceeds (with `joined` or `room_full`) under the coerced-trimmed
code. server.js replies iff the field is not a non-empty string, with NO
trimming, so whitespace-only codes are accepted verbatim. In each error case
the registry is unchanged. -/
theorem claim8_missing_room {isOpen : Conn → Bool} {ws : Conn} {data : Nat}
    {roomF : JsVal} :
    (∀ rooms : Registry,
      ((ws, OutMsg.errMsg "missing_room") ∈
          (handleMessageA isOpen rooms ws (.msg (.jsStr "join") roomF data)).2 ↔
        codeOfA roomF = "") ∧
      (codeOfA roomF = "" →
        handleMessageA isOpen rooms ws (.msg (.jsStr "join") roomF data) =
          (rooms, [(ws, .errMsg "missing_room")])) ∧
      (codeOfA roomF ≠ "" →
        (ws, .errMsg "room_full") ∈
            (handleMessageA isOpen rooms ws (.msg (.jsStr "join") roomF data)).2 ∨
        ∃ sd, (ws, .joined (codeOfA roomF) (some sd)) ∈
            (handleMessageA isOpen rooms ws (.msg (.jsStr "join") roomF data)).2)) ∧
    (∀ st : StateB,
      handleMessageB isOpen st ws (.msg (.jsStr "join") roomF data) =
          (st, [(ws, .errMsg "missing_room")]) ↔
        ∀ s, roomF = .jsStr s → s = "") := by
  constructor
  · intro rooms
    rw [handleA_join_eq]
    by_cases hc : codeOfA roomF = ""
    · rw [joinA, if_pos hc]
      refine ⟨⟨fun _ => hc, fun _ => ?_⟩, fun _ => rfl,
        fun hne => absurd hc hne⟩
      simp
    · obtain ⟨mid, bc, hout, hmid⟩ := @joinA_out_cases isOpen rooms ws _ hc
      refine ⟨⟨fun hmem => ?_, fun he => absurd he hc⟩,
        fun he => absurd he hc, fun _ => ?_⟩
      · rw [hout] at hmem
        rcases List.mem_append.mp hmem with hmem | hmem
        · rcases List.mem_append.mp hmem with hmem | hmem
          · exact absurd hmem missing_not_in_leave
          · simp only [List.mem_singleton] at hmem
            have hm2 : mid = OutMsg.errMsg "missing_room" :=
              congrArg Prod.snd hmem |>.symm
            rcases hmid with ⟨hfull, _⟩ | ⟨sd, rFin, hj, _⟩
            · rw [hfull] at hm2
              exact absurd (congrArg id hm2) (by decide)
            · rw [hj] at hm2
              exact OutMsg.noConfusion hm2
        · rcases hmid with ⟨_, hbc⟩ | ⟨sd, rFin, _, hbc⟩
          · rw [hbc] at hmem
            exact absurd hmem (List.not_mem_nil _)
          · rw [hbc] at hmem
            exact OutMsg.noConfusion (broadcast_snd hmem)
      · have hmem : (ws, mid) ∈ (joinA isOpen rooms ws (codeOfA roomF)).2 := by
          rw [hout]
          exact List.mem_append.mpr (Or.inl (List.mem_append.mpr
            (Or.inr (List.mem_singleton.mpr rfl))))
        rcases hmid with ⟨hfull, _⟩ | ⟨sd, rFin, hj, _⟩
        · exact Or.inl (hfull ▸ hmem)
        · exact Or.inr ⟨sd, hj ▸ hmem⟩
  · intro st
    cases roomF with
    | undef => exact ⟨fun _ s hs => JsVal.noConfusion hs, fun _ => rfl⟩
    | jsNull => exact ⟨fun _ s hs => JsVal.noConfusion hs, fun _ => rfl⟩
    | jsBool b => exact ⟨fun _ s hs => JsVal.noConfusion hs, fun _ => rfl⟩
    | jsNum n => exact ⟨fun _ s hs => JsVal.noConfusion hs, fun _ => rfl⟩
    | jsStr s =>
      rw [handleB_join_str_eq]
      by_cases hs : s = ""
      · refine ⟨fun _ s' hs' => ?_, fun _ => by rw [joinB, if_pos hs]⟩
        cases hs'
        exact hs
      · constructor
        · intro heq
          exfalso
          rw [joinB, if_neg hs] at heq
          by_cases hfull : 2 ≤ (getRoomObj st.rooms s).clients.length
          · rw [if_pos hfull] at heq
            have h2 := congrArg Prod.snd heq
            simp only [List.cons.injEq, Prod.mk.injEq] at h2
            exact absurd (congrArg id h2.1.2) (by decide)
          · rw [if_neg hfull] at heq
            have h2 := congrArg Prod.snd heq
            simp only [List.cons_append, List.cons.injEq, Prod.mk.injEq] at h2
            exact OutMsg.noConfusion h2.1.2
        · intro hall
          exact absurd (hall s rfl) hs

/-- Witness for C8's amended theorem: part_000 rejects the whitespace-only
code (trim applies), server.js rejects a numeric room field. -/
theorem claim8_missing_room_witness :
    handleMessageA (fun _ => true) [] 1
      (.msg (.jsStr "join") (.jsStr "   ") 0) =
      ([], [(1, .errMsg "missing_room")]) ∧
    handleMessageB (fun _ => true) ⟨[], []⟩ 1
      (.msg (.jsStr "join") (.jsNum 5) 0) =
      (⟨[], []⟩, [(1, .errMsg "missing_room")]) :=
  ⟨(claim8_missing_room.1 []).2.1 (by decide),
   (claim8_missing_room.2 ⟨[], []⟩).mpr (fun s hs => JsVal.noConfusion hs)⟩

/-- C10 counterexample: server.js. The second conjunct shows the state (empty
registry, connection 1's cached `currentRoom` still "abc") is produced by the
close handler itself after a join; from it, a `move` for "abc" passes the
cached-code check and `getRoom` re-creates the room: the registry changes
(an empty room "abc" appears), contradicting the claim's "leaves the room
registry completely unchanged ... for every sender and every registry
state". -/
theorem claim10_counterexample :
    (handleMessageB (fun _ => true) ⟨[], [(1, "abc")]⟩ 1
      (.msg (.jsStr "move") (.jsStr "abc") 0)).1 =
      ⟨[("abc", ⟨[], []⟩)], [(1, "abc")]⟩ ∧
    (closeB (fun _ => true)
      ((handleMessageB (fun _ => true) ⟨[], []⟩ 1
        (.msg (.jsStr "join") (.jsStr "abc") 0)).1) 1).1 =
      ⟨[], [(1, "abc")]⟩ := by decide

/-- C10 (amended): part_000's `move`, `reset` and undecodable frames leave the
registry unchanged for every sender and every registry state, as the claim
says. In server.js undecodable frames and failed-check messages also leave
the state unchanged, and `move`/`reset` leave it unchanged provided the
sender's cached room code, when it matches the message's room, is present in
the registry (true in every live reachable state; violated only by the
stale-cache re-creation shown in the counterexample). -/
theorem claim10_relay_preserves_registry {isOpen : Conn → Bool} {ws : Conn}
    {data : Nat} {roomF : JsVal} :
    (∀ rooms : Registry,
      (handleMessageA isOpen rooms ws .invalid).1 = rooms ∧
      (handleMessageA isOpen rooms ws (.msg (.jsStr "move") roomF data)).1 = rooms ∧
      (handleMessageA isOpen rooms ws (.msg (.jsStr "reset") roomF data)).1 = rooms) ∧
    (∀ st : StateB,
      (handleMessageB isOpen st ws .invalid).1 = st ∧
      ((∀ s, roomF = .jsStr s → curGet st.cur ws = some s →
          (regLookup st.rooms s).isSome = true) →
        (handleMessageB isOpen st ws (.msg (.jsStr "move") roomF data)).1 = st ∧
        (handleMessageB isOpen st ws (.msg (.jsStr "reset") roomF data)).1 = st)) := by
  constructor
  · intro rooms
    exact ⟨rfl, handleA_fst_eq_of_not_join (by decide),
      handleA_fst_eq_of_not_join (by decide)⟩
  · intro st
    refine ⟨rfl, fun h => ?_⟩
    cases roomF with
    | undef => exact ⟨rfl, rfl⟩
    | jsNull => exact ⟨rfl, rfl⟩
    | jsBool b => exact ⟨rfl, rfl⟩
    | jsNum n => exact ⟨rfl, rfl⟩
    | jsStr s =>
      constructor
      · rw [handleB_nonjoin_str_eq isOpen st ws s data (by decide)]
        by_cases hs : s = ""
        · rw [if_pos hs]
        · rw [if_neg hs]
          by_cases hcur : curGet st.cur ws ≠ some s
          · rw [if_pos hcur]
          · rw [if_neg hcur]
            rw [not_not] at hcur
            rw [relayB_fst, getRoomAdd_of_isSome (h s rfl hcur)]
      · rw [handleB_nonjoin_str_eq isOpen st ws s data (by decide)]
        by_cases hs : s = ""
        · rw [if_pos hs]
        · rw [if_neg hs]
          by_cases hcur : curGet st.cur ws ≠ some s
          · rw [if_pos hcur]
          · rw [if_neg hcur]
            rw [not_not] at hcur
            rw [relayB_fst, getRoomAdd_of_isSome (h s rfl hcur)]

/-- Witness for C10's amended theorem on a concrete two-member room. -/
theorem claim10_relay_preserves_registry_witness :
    (handleMessageA (fun _ => true)
      [("abc", ⟨[1, 2], [(1, some Side.X), (2, some Side.O)]⟩)] 1 .invalid).1 =
      [("abc", ⟨[1, 2], [(1, some Side.X), (2, some Side.O)]⟩)] ∧
    (handleMessageB (fun _ => true)
      ⟨[("abc", ⟨[1, 2], [(1, some Side.X), (2, some Side.O)]⟩)],
       [(1, "abc"), (2, "abc")]⟩ 1
      (.msg (.jsStr "move") (.jsStr "abc") 7)).1 =
      ⟨[("abc", ⟨[1, 2], [(1, some Side.X), (2, some Side.O)]⟩)],
       [(1, "abc"), (2, "abc")]⟩ :=
  have h := @claim10_relay_preserves_registry (fun _ => true) 1 7 (.jsStr "abc")
  ⟨(h.1 _).1,
   ((h.2 ⟨[("abc", ⟨[1, 2], [(1, some Side.X), (2, some Side.O)]⟩)],
      [(1, "abc"), (2, "abc")]⟩).2 (fun s hs hcur => by
        cases hs
        decide)).1⟩

end TTTRelay
